import Mathlib

/-!
Verification of the `SuperDict` mapping type of `pytups` (src/pytups/superdict.py).

The embedding models a `SuperDict` as an insertion-ordered association list
(`SDict`), mirroring the ordered-dictionary semantics of the host language:
assigning to an existing key replaces its value in place, assigning to a fresh
key appends the entry at the end.  The key universe is a scalar string or a
flat tuple of strings (`Key`); the value universe is a scalar integer, a list
(whose elements are keys, so they can be used as dictionary keys by
`list_reverse`), or a nested dictionary (`Val`).  Strings are iterable in the
host language: unpacking a scalar string key yields its one-character
substrings, which `keyPath` reproduces.  Every nested dictionary value of the
universe is itself a `SuperDict`, so the source's `isinstance(x, SuperDict)`
(in `set_m`) and `isinstance(x, dict)` (in `update`) both correspond to the
`Val.dict` constructor here.
-/

/-- A dictionary key: a scalar string or a (flat) tuple of strings. -/
inductive Key where
  | s : String → Key
  | tup : List String → Key
deriving DecidableEq, Repr

/-- A dictionary value: a scalar, a list, or a nested dictionary
(association list in insertion order). -/
inductive Val where
  | int : Int → Val
  | vlist : List Key → Val
  | dict : List (Key × Val) → Val

/-- The state of a `SuperDict`: its entries in insertion order. -/
abbrev SDict := List (Key × Val)

/-- `v.isDict` tests whether a value is a (nested) dictionary. -/
def Val.isDict : Val → Bool
  | .dict _ => true
  | _ => false

/-- `v.isVlist` tests whether a value is a list. -/
def Val.isVlist : Val → Bool
  | .vlist _ => true
  | _ => false

/-- `k.isTup` tests whether a key is a tuple. -/
def Key.isTup : Key → Bool
  | .tup _ => true
  | _ => false

/-- Dictionary lookup `self[k]` / `k in self`: the entry whose key equals `k`. -/
def lookup : SDict → Key → Option Val
  | [], _ => none
  | (k', v) :: rest, k => if k' = k then some v else lookup rest k

/-- Dictionary assignment `self[k] = v`: replaces the value in place if the key
is present, appends the entry otherwise. -/
def setKey : SDict → Key → Val → SDict
  | [], k, v => [(k, v)]
  | (k', v') :: rest, k, v =>
      if k' = k then (k, v) :: rest else (k', v') :: setKey rest k v

/-- The keys of a dictionary, in insertion order (`keys()`). -/
def keysOf (d : SDict) : List Key := d.map Prod.fst

/-- Plain `dict.update`: assigns every entry of `l` into `d`, in order. -/
def plainUpdate (d : SDict) (l : List (Key × Val)) : SDict :=
  l.foldl (fun acc kv => setKey acc kv.1 kv.2) d

/-- Builds a dictionary from a list of pairs (a dict comprehension or a dict
copy): later pairs with an equal key overwrite earlier ones in place. -/
def ofPairs (l : List (Key × Val)) : SDict := plainUpdate [] l

/-- The value a method call returns: the host `None`, or a dictionary. -/
inductive Ret where
  | none
  | dict : SDict → Ret

/-- `set_m(*args, value)` (superdict.py lines 96-117): uses `args` as nested
keys and assigns `value` at the end, creating a fresh sub-dictionary at every
step whose key is absent or holds a non-dictionary value; returns `self`.
With no positional argument at all, `args[0]` fails with an index error,
modelled by `none`.  The result pairs the final state of `self` with the value
the method returns. -/
def set_m : SDict → List Key → Val → Option (SDict × Ret)
  | _, [], _ => none
  | d, [k], v =>
      let d' := setKey d k v
      some (d', Ret.dict d')
  | d, k :: rest, v =>
      let sub : SDict := match lookup d k with
        | some (Val.dict sd) => sd
        | _ => []
      match set_m sub rest v with
      | none => none
      | some (nd, _) =>
          let d' := setKey d k (Val.dict nd)
          some (d', Ret.dict d')

/-- The sequence of keys obtained by unpacking a key with `*tup`
(superdict.py line 93): a tuple unpacks into its components, and a scalar
string — being iterable — unpacks into its one-character substrings. -/
def keyPath : Key → List Key
  | Key.s str => str.toList.map (fun c => Key.s (String.mk [c]))
  | Key.tup l => l.map Key.s

/-- Iterates `set_m` over a list of (unpacked key, value) pairs, propagating
failure, as the loop of `to_dictdict` does. -/
def insertAll : SDict → List (List Key × Val) → Option SDict
  | acc, [] => some acc
  | acc, (p, v) :: rest =>
      match set_m acc p v with
      | none => none
      | some (acc', _) => insertAll acc' rest

/-- `to_dictdict()` (superdict.py lines 80-94): starts from an empty
dictionary and runs `dictdict.set_m(*tup, value=value)` for every item. -/
def to_dictdict (d : SDict) : Option SDict :=
  insertAll [] (d.map (fun kv => (keyPath kv.1, kv.2)))

/-- Descends through nested dictionaries along a list of keys; `none` when a
key is absent or a non-dictionary value is reached before the path ends. -/
def descend : Val → List Key → Option Val
  | v, [] => some v
  | Val.dict entries, k :: rest =>
      match lookup entries k with
      | some v => descend v rest
      | none => none
  | _, _ :: _ => none

/-- The scalar components of a path of keys; `none` if some component is
itself a tuple (such a path would form a nested tuple, which lies outside the
flat-tuple key universe of this embedding). -/
def strsOfPath : List Key → Option (List String)
  | [] => some []
  | Key.s str :: rest => (strsOfPath rest).map (str :: ·)
  | Key.tup _ :: _ => none

/-- `tuple(keys)` for a path of scalar keys. -/
def tupOfPath (path : List Key) : Option Key :=
  (strsOfPath path).map Key.tup

/-- `dicts_to_tup(keys, content)` (superdict.py lines 119-134): compacts
nested dictionaries into a single dictionary keyed by tuples.  A
non-dictionary content is assigned at key `tuple(keys)`; a dictionary content
recurses into every entry with the entry's key appended to the path. -/
def dicts_to_tup : SDict → List Key → Val → Option SDict
  | self, keys, Val.int n =>
      (tupOfPath keys).map (fun tk => setKey self tk (Val.int n))
  | self, keys, Val.vlist l =>
      (tupOfPath keys).map (fun tk => setKey self tk (Val.vlist l))
  | self, _, Val.dict [] => some self
  | self, keys, Val.dict ((k, v) :: rest) =>
      match dicts_to_tup self (keys ++ [k]) v with
      | none => none
      | some s' => dicts_to_tup s' keys (Val.dict rest)

/-- `to_dictup()` (superdict.py lines 136-144): `SuperDict().dicts_to_tup([], self)`. -/
def to_dictup (d : SDict) : Option SDict :=
  dicts_to_tup [] [] (Val.dict d)

/-- The result of `get_m`: a value, the host `None` (a `KeyError` was caught),
or an uncaught `TypeError` from indexing a non-dictionary value. -/
inductive GetmRes where
  | found : Val → GetmRes
  | pyNone : GetmRes
  | typeError : GetmRes

/-- The loop of `get_m` (superdict.py lines 248-261), on the current value:
`d = d[i]` looks a key up when `d` is a dictionary (a missing key raises
`KeyError`, caught by the method, which then returns `None`); indexing a
scalar or a list with a key raises `TypeError`, which the method does not
catch. -/
def get_m_val : Val → List Key → GetmRes
  | v, [] => GetmRes.found v
  | Val.dict entries, k :: rest =>
      match lookup entries k with
      | some v => get_m_val v rest
      | none => GetmRes.pyNone
  | _, _ :: _ => GetmRes.typeError

/-- `get_m(*args)` (superdict.py lines 248-261). -/
def get_m (d : SDict) (args : List Key) : GetmRes :=
  get_m_val (Val.dict d) args

/-- The `indices` argument of `filter`: a scalar key or a list of keys
(a non-list argument is wrapped into a one-element list). -/
inductive FilterIdx where
  | one : Key → FilterIdx
  | many : List Key → FilterIdx

/-- First-occurrence deduplication of a list of keys. -/
def dedupKeys (l : List Key) : List Key :=
  l.foldl (fun acc k => if k ∈ acc then acc else acc ++ [k]) []

/-- First-occurrence deduplication of a list of strings. -/
def dedupStrs (l : List String) : List String :=
  l.foldl (fun acc s => if s ∈ acc then acc else acc ++ [s]) []

/-- An exception escaping `filter`: the `KeyError("following elements not in
keys: ...")` raised at line 77 with the array `np.setdiff1d` produced; a bare
`KeyError(k)` raised by `self[k]` inside the unguarded comprehension at line
78; or the `ValueError` the numpy array coercion raises on a ragged list
(mixed scalars and tuples, or tuples of unequal lengths). -/
inductive FilterErr where
  | badElems : List String → FilterErr
  | keyError : Key → FilterErr
  | valueError : FilterErr

/-- The string of a scalar key. -/
def scalarStr : Key → Option String
  | Key.s str => some str
  | Key.tup _ => none

/-- The components of a tuple key (empty for scalars). -/
def tupleElems : Key → List String
  | Key.tup t => t
  | Key.s _ => []

/-- The concatenated components of a list of tuple keys. -/
def tupleConcat : List Key → List String
  | [] => []
  | k :: rest => tupleElems k ++ tupleConcat rest

/-- Tests that a key is a tuple of the given length. -/
def tupLenEq (n : Nat) : Key → Bool
  | Key.tup t => t.length == n
  | Key.s _ => false

/-- `np.unique(np.array(l)).ravel()`, as `np.setdiff1d` applies it to each
argument: a list of scalar strings becomes those strings; a list of tuples of
equal length becomes a two-dimensional array, which ravels into the
concatenation of all tuple components; a ragged list (mixed scalars and
tuples, or tuples of unequal lengths) makes the array coercion fail
(`none`).  The sorting `np.unique` also performs is immaterial to the
properties stated below and is not modelled; deduplication happens in
`filter` below. -/
def ravelKeys : List Key → Option (List String)
  | [] => some []
  | Key.s str :: rest =>
      if rest.all (fun k => !k.isTup) then some (str :: rest.filterMap scalarStr) else none
  | Key.tup t :: rest =>
      if rest.all (tupLenEq t.length) then some (tupleConcat (Key.tup t :: rest)) else none

/-- The unguarded comprehension `{k: self[k] for k in indices}` (line 78):
entries are assigned in order; the first requested key absent from `self`
raises a bare `KeyError` naming that key. -/
def compLoop (d : SDict) (acc : SDict) : List Key → Except FilterErr SDict
  | [] => Except.ok acc
  | k :: rest =>
      match lookup d k with
      | some v => compLoop d (setKey acc k v) rest
      | none => Except.error (FilterErr.keyError k)

/-- `filter(indices, check)` (superdict.py lines 57-78).
`np.setdiff1d(indices, list(self.keys()))` coerces each side to an array and
compares their raveled unique elements (see `ravelKeys`): for tuple keys the
difference is computed on tuple *components*, not on the keys themselves.
`bad_elem` is modelled as the deduplicated raveled elements of `indices`
absent from the raveled keys (the sorted order `np.setdiff1d` returns is
immaterial here). -/
def filter (d : SDict) (idx : FilterIdx) (check : Bool) : Except FilterErr SDict :=
  let indices := match idx with
    | FilterIdx.one k => [k]
    | FilterIdx.many l => l
  if !check then
    Except.ok (ofPairs (indices.filterMap (fun k => (lookup d k).map (fun v => (k, v)))))
  else
    match ravelKeys indices, ravelKeys (keysOf d) with
    | none, _ => Except.error FilterErr.valueError
    | some _, none => Except.error FilterErr.valueError
    | some c1, some c2 =>
        let bad_elem := dedupStrs (c1.filter (fun s => decide (s ∉ c2)))
        if bad_elem = [] then
          compLoop d [] indices
        else
          Except.error (FilterErr.badElems bad_elem)

/-- `fill_with_default(keys, default)` (superdict.py lines 187-197):
`_dict = {k: default for k in keys}; _dict.update(self); SuperDict(_dict)`. -/
def fill_with_default (d : SDict) (keys : List Key) (default : Val) : SDict :=
  plainUpdate (ofPairs (keys.map (fun k => (k, default)))) d

/-- Iterating a value with `for el in v`: a list yields its elements, a
dictionary yields its keys, a scalar is not iterable (`TypeError`, `none`). -/
def pyIter : Val → Option (List Key)
  | Val.vlist l => some l
  | Val.dict entries => some (keysOf entries)
  | Val.int _ => none

/-- The elements of all values of the dictionary, concatenated in iteration
order, as the generator `(val for l in self.values() for val in l)` yields
them; `none` if some value is not iterable. -/
def elemsOfValues : SDict → Option (List Key)
  | [] => some []
  | (_, v) :: rest =>
      match pyIter v with
      | none => none
      | some l => (elemsOfValues rest).map (fun ls => l ++ ls)

/-- Appends `k` to the list stored at `dict_out[el]`; a missing key or a
non-list value would fail (`none`). -/
def appendKey (out : SDict) (el : Key) (k : Key) : Option SDict :=
  match lookup out el with
  | some (Val.vlist l) => some (setKey out el (Val.vlist (l ++ [k])))
  | _ => none

/-- The inner loop `for el in v: dict_out[el].append(k)`. -/
def appendElems : SDict → List Key → Key → Option SDict
  | out, [], _ => some out
  | out, el :: els, k =>
      match appendKey out el k with
      | none => none
      | some out' => appendElems out' els k

/-- The outer loop of `list_reverse` over the items of the dictionary. -/
def appendLoop : SDict → List (Key × Val) → Option SDict
  | out, [] => some out
  | out, (k, v) :: rest =>
      match pyIter v with
      | none => none
      | some l =>
          match appendElems out l k with
          | none => none
          | some out' => appendLoop out' rest

/-- `list_reverse()` (superdict.py lines 146-157): collects the deduplicated
elements of all value lists (`list(set(...))`, whose iteration order is
unspecified in the host; first-occurrence order here), initializes each such
element to an empty list, then appends every original key to the entry of
every element of its value. -/
def list_reverse (d : SDict) : Option SDict :=
  match elemsOfValues d with
  | none => none
  | some elems =>
      let out0 := ofPairs ((dedupKeys elems).map (fun k => (k, Val.vlist [])))
      appendLoop out0 d

/-- The loop of `update` (superdict.py lines 286-292): for every entry of
`other`, replace `self[k]` unless both `self[k]` and the new value are
dictionaries, in which case merge recursively (`self[k].update(v)`; the
recursive call first copies `v` into a fresh dictionary, which for a
dictionary value — whose keys are unique — is the identity, so it merges the
entries of `v` directly). -/
def mergeLoop : SDict → List (Key × Val) → SDict
  | s, [] => s
  | s, (k, Val.dict od) :: rest =>
      match lookup s k with
      | some (Val.dict sd) => mergeLoop (setKey s k (Val.dict (mergeLoop sd od))) rest
      | _ => mergeLoop (setKey s k (Val.dict od)) rest
  | s, (k, v) :: rest => mergeLoop (setKey s k v) rest

/-- `update(*args, **kwargs)` (superdict.py lines 272-292): with more than one
positional argument it raises `TypeError` (`Except.error`); otherwise it
collects the positional dictionary (if any) and the keyword overrides into
`other` — keyword entries assigned last — and merge-updates `self` with it.
The method body has no `return` statement, so it returns the host `None`. -/
def update (self : SDict) (args : List SDict) (kwargs : List (String × Val)) :
    Except Unit (SDict × Ret) :=
  match args with
  | _ :: _ :: _ => Except.error ()
  | _ =>
      let other : SDict :=
        plainUpdate (match args with | [] => [] | a :: _ => plainUpdate [] a)
          (kwargs.map (fun p => (Key.s p.1, p.2)))
      Except.ok (mergeLoop self other, Ret.none)

mutual

/-- `from_dict(data)` (superdict.py lines 324-337) on a value: wraps every
nested dictionary into a fresh `SuperDict`, copying it, and leaves every
other value untouched. -/
def fromDictVal : Val → Val
  | Val.int n => Val.int n
  | Val.vlist l => Val.vlist l
  | Val.dict entries => Val.dict (fromDictEntries entries)

/-- `from_dict` applied to every value of an entry list (the loop
`for key, value in data.items(): data[key] = cls.from_dict(value)`). -/
def fromDictEntries : List (Key × Val) → List (Key × Val)
  | [] => []
  | (k, v) :: rest => (k, fromDictVal v) :: fromDictEntries rest

end

/-- `from_dict` on a dictionary argument. -/
def from_dict (d : SDict) : SDict := fromDictEntries d

/-- `_update(dict)` (superdict.py lines 294-302): builds
`temp_dict = SuperDict.from_dict(self)` — a copy whose nested dictionaries
are all fresh — then runs `temp_dict.update(dict)` and returns `temp_dict`.
`self` is only read, never assigned to, so the method leaves the state of
`self` unchanged; the result pairs that state with the returned dictionary. -/
def merged_copy (self other : SDict) : SDict × SDict :=
  match update (from_dict self) [other] [] with
  | Except.ok (temp', _) => (self, temp')
  | Except.error _ => (self, [])

/-- Total version of the state transformation of `set_m` (meaningful for a
nonempty path; on an empty path the method fails instead). -/
def setmT : SDict → List Key → Val → SDict
  | d, [], _ => d
  | d, [k], v => setKey d k v
  | d, k :: rest, v =>
      setKey d k (Val.dict (setmT (match lookup d k with
        | some (Val.dict sd) => sd
        | _ => []) rest v))

/-- The nested chain of singleton dictionaries along a path, ending in `v`. -/
def nestPath : List Key → Val → SDict
  | [], _ => []
  | [k], v => [(k, v)]
  | k :: rest, v => [(k, Val.dict (nestPath rest v))]

/-- Well-formedness of the nested dictionaries `to_dictdict` builds: every
level has unique, scalar-string keys. -/
inductive WFS : Val → Prop where
  | int (n : Int) : WFS (Val.int n)
  | vlist (l : List Key) : WFS (Val.vlist l)
  | dict (entries : List (Key × Val))
      (hs : ∀ kv ∈ entries, ∃ str, kv.1 = Key.s str)
      (hnd : (keysOf entries).Nodup)
      (hv : ∀ kv ∈ entries, WFS kv.2) : WFS (Val.dict entries)

/-- `u` is the leaf value sitting at path `q` of the nested dictionary `D`. -/
def leafAt (D : SDict) (q : List Key) (u : Val) : Prop :=
  descend (Val.dict D) q = some u ∧ u.isDict = false

/-- Association lookup on a list of (path, value) pairs. -/
def pathLookup : List (List Key × Val) → List Key → Option Val
  | [], _ => none
  | (p, v) :: rest, q => if p = q then some v else pathLookup rest q

/-- The leaves of a nested dictionary value, with their full (scalar) paths,
in depth-first iteration order — the entries `dicts_to_tup` assigns.  A
tuple-valued key cannot occur in a well-formed nested dictionary and
contributes nothing. -/
def emit : List String → Val → List (Key × Val)
  | ks, Val.int n => [(Key.tup ks, Val.int n)]
  | ks, Val.vlist l => [(Key.tup ks, Val.vlist l)]
  | _, Val.dict [] => []
  | ks, Val.dict ((Key.s str, v) :: rest) =>
      emit (ks ++ [str]) v ++ emit ks (Val.dict rest)
  | ks, Val.dict ((Key.tup _, _) :: rest) => emit ks (Val.dict rest)

/-- The elements of a list value (empty for non-lists). -/
def elemsOf : Val → List Key
  | Val.vlist l => l
  | _ => []

/-- The elements of all value lists of a dictionary, concatenated. -/
def allElems : SDict → List Key
  | [] => []
  | kv :: rest => elemsOf kv.2 ++ allElems rest

/-- The keys of `d` whose value list contains `e`, in iteration order. -/
def keysContaining (d : SDict) (e : Key) : List Key :=
  (d.filter (fun kv => decide (e ∈ elemsOf kv.2))).map Prod.fst

theorem lookup_setKey_self (d : SDict) (k : Key) (v : Val) :
    lookup (setKey d k v) k = some v := by
  induction d with
  | nil => simp [setKey, lookup]
  | cons kv rest ih =>
      obtain ⟨k', v'⟩ := kv
      by_cases h : k' = k <;> simp [setKey, h, lookup, ih]

theorem lookup_setKey_ne (d : SDict) (k : Key) (v : Val) (q : Key) (h : k ≠ q) :
    lookup (setKey d k v) q = lookup d q := by
  induction d with
  | nil => simp [setKey, lookup, h]
  | cons kv rest ih =>
      obtain ⟨k', v'⟩ := kv
      by_cases h' : k' = k
      · subst h'
        simp [setKey, lookup, h]
      · simp [setKey, h', lookup, ih]

theorem keysOf_cons (kv : Key × Val) (rest : SDict) :
    keysOf (kv :: rest) = kv.1 :: keysOf rest := rfl

theorem lookup_eq_none_iff (l : SDict) (q : Key) :
    lookup l q = none ↔ q ∉ keysOf l := by
  induction l with
  | nil => simp [lookup, keysOf]
  | cons kv rest ih =>
      obtain ⟨k', v'⟩ := kv
      by_cases h : k' = q
      · subst h
        simp [lookup, keysOf_cons]
      · simp [lookup, keysOf_cons, h, ih, Ne.symm h]

theorem lookup_isSome_iff (l : SDict) (q : Key) :
    (lookup l q).isSome = true ↔ q ∈ keysOf l := by
  rw [Option.isSome_iff_ne_none, not_iff_comm, ← lookup_eq_none_iff]

theorem lookup_eq_some_mem (l : SDict) (q : Key) (u : Val) (h : lookup l q = some u) :
    (q, u) ∈ l := by
  induction l with
  | nil => simp [lookup] at h
  | cons kv rest ih =>
      obtain ⟨k', v'⟩ := kv
      by_cases h' : k' = q
      · subst h'
        simp [lookup] at h
        simp [h]
      · simp [lookup, h'] at h
        exact List.mem_cons_of_mem _ (ih h)

theorem mem_lookup_eq_some (l : SDict) (q : Key) (u : Val)
    (hnd : (keysOf l).Nodup) (h : (q, u) ∈ l) : lookup l q = some u := by
  induction l with
  | nil => simp at h
  | cons kv rest ih =>
      obtain ⟨k', v'⟩ := kv
      simp only [keysOf, List.map_cons, List.nodup_cons] at hnd
      rcases List.mem_cons.mp h with h1 | h1
      · obtain ⟨rfl, rfl⟩ := Prod.mk.injEq .. ▸ h1
        simp [lookup]
      · have hne : k' ≠ q := by
          rintro rfl
          exact hnd.1 (List.mem_map.mpr ⟨(k', u), h1, rfl⟩)
        simpa [lookup, hne] using ih hnd.2 h1

theorem keysOf_setKey_mem (d : SDict) (k : Key) (v : Val) (h : k ∈ keysOf d) :
    keysOf (setKey d k v) = keysOf d := by
  induction d with
  | nil => simp [keysOf] at h
  | cons kv rest ih =>
      obtain ⟨k', v'⟩ := kv
      by_cases h' : k' = k
      · simp [setKey, h', keysOf_cons]
      · have hk : k ∈ keysOf rest := by
          rcases List.mem_cons.mp (keysOf_cons (k', v') rest ▸ h) with h1 | h1
          · exact absurd h1.symm h'
          · exact h1
        simp [setKey, h', keysOf_cons, ih hk]

theorem setKey_not_mem (d : SDict) (k : Key) (v : Val) (h : k ∉ keysOf d) :
    setKey d k v = d ++ [(k, v)] := by
  induction d with
  | nil => simp [setKey]
  | cons kv rest ih =>
      obtain ⟨k', v'⟩ := kv
      have h1 : k' ≠ k := by
        rintro rfl
        exact h (by simp [keysOf_cons])
      have h2 : k ∉ keysOf rest := fun hm => h (by simp [keysOf_cons, hm])
      simp [setKey, h1, ih h2]

theorem mem_keysOf_setKey (d : SDict) (k : Key) (v : Val) (q : Key) :
    q ∈ keysOf (setKey d k v) ↔ q = k ∨ q ∈ keysOf d := by
  induction d with
  | nil => simp [setKey, keysOf]
  | cons kv rest ih =>
      obtain ⟨k', v'⟩ := kv
      by_cases h : k' = k
      · subst h
        simp [setKey, keysOf_cons]
      · simp [setKey, h, keysOf_cons, ih]
        tauto

theorem nodup_keysOf_setKey (d : SDict) (k : Key) (v : Val)
    (h : (keysOf d).Nodup) : (keysOf (setKey d k v)).Nodup := by
  induction d with
  | nil => simp [setKey, keysOf]
  | cons kv rest ih =>
      obtain ⟨k', v'⟩ := kv
      rw [keysOf_cons, List.nodup_cons] at h
      by_cases h' : k' = k
      · subst h'
        simpa [setKey, keysOf_cons] using h
      · rw [show setKey ((k', v') :: rest) k v = (k', v') :: setKey rest k v by
          simp [setKey, h'], keysOf_cons, List.nodup_cons]
        refine ⟨?_, ih h.2⟩
        intro hm
        rcases (mem_keysOf_setKey rest k v k').mp hm with h1 | h1
        · exact h' h1
        · exact h.1 h1

theorem mem_setKey (d : SDict) (k : Key) (v : Val) (kv' : Key × Val)
    (h : kv' ∈ setKey d k v) : kv' ∈ d ∨ kv' = (k, v) := by
  induction d with
  | nil => simpa [setKey] using h
  | cons kv rest ih =>
      obtain ⟨k', v'⟩ := kv
      by_cases h' : k' = k
      · subst h'
        rcases List.mem_cons.mp (by simpa [setKey] using h) with h1 | h1
        · exact Or.inr h1
        · exact Or.inl (List.mem_cons_of_mem _ h1)
      · rcases List.mem_cons.mp (by simpa [setKey, h'] using h) with h1 | h1
        · exact Or.inl (by simp [h1])
        · rcases ih h1 with h2 | h2
          · exact Or.inl (List.mem_cons_of_mem _ h2)
          · exact Or.inr h2

theorem plainUpdate_cons (b : SDict) (kv : Key × Val) (l : List (Key × Val)) :
    plainUpdate b (kv :: l) = plainUpdate (setKey b kv.1 kv.2) l := rfl

theorem lookup_plainUpdate_of_not_mem (b : SDict) (l : List (Key × Val)) (q : Key)
    (h : q ∉ keysOf l) : lookup (plainUpdate b l) q = lookup b q := by
  induction l generalizing b with
  | nil => rfl
  | cons kv rest ih =>
      obtain ⟨k', v'⟩ := kv
      rw [keysOf_cons] at h
      have h1 : k' ≠ q := fun hq => h (by simp [hq])
      have h2 : q ∉ keysOf rest := fun hq => h (by simp [hq])
      rw [plainUpdate_cons, ih _ h2, lookup_setKey_ne _ _ _ _ h1]

theorem lookup_plainUpdate_of_lookup (b : SDict) (l : List (Key × Val)) (q : Key) (u : Val)
    (hnd : (keysOf l).Nodup) (h : lookup l q = some u) :
    lookup (plainUpdate b l) q = some u := by
  induction l generalizing b with
  | nil => simp [lookup] at h
  | cons kv rest ih =>
      obtain ⟨k', v'⟩ := kv
      rw [keysOf_cons, List.nodup_cons] at hnd
      by_cases hq : k' = q
      · subst hq
        simp [lookup] at h
        subst h
        rw [plainUpdate_cons,
          lookup_plainUpdate_of_not_mem _ _ _ hnd.1, lookup_setKey_self]
      · simp only [lookup, if_neg hq] at h
        rw [plainUpdate_cons, ih _ hnd.2 h]

theorem lookup_plainUpdate_constMap (b : SDict) (ks : List Key) (c : Val) (q : Key) :
    lookup (plainUpdate b (ks.map (fun k => (k, c)))) q =
      if q ∈ ks then some c else lookup b q := by
  induction ks generalizing b with
  | nil => simp [plainUpdate]
  | cons k0 rest ih =>
      rw [List.map_cons, plainUpdate_cons, ih]
      by_cases hq : q ∈ rest
      · simp [hq]
      · by_cases hk : q = k0
        · subst hk
          simp [hq, lookup_setKey_self]
        · simp [hq, hk, lookup_setKey_ne _ _ _ _ (Ne.symm hk)]

theorem keysOf_plainUpdate_mem (b : SDict) (l : List (Key × Val)) (q : Key) :
    q ∈ keysOf (plainUpdate b l) ↔ q ∈ keysOf b ∨ q ∈ keysOf l := by
  induction l generalizing b with
  | nil => simp [plainUpdate, keysOf]
  | cons kv rest ih =>
      obtain ⟨k', v'⟩ := kv
      rw [plainUpdate_cons, ih]
      simp [mem_keysOf_setKey, keysOf_cons]
      tauto

theorem nodup_keysOf_plainUpdate (b : SDict) (l : List (Key × Val))
    (h : (keysOf b).Nodup) : (keysOf (plainUpdate b l)).Nodup := by
  induction l generalizing b with
  | nil => exact h
  | cons kv rest ih =>
      rw [plainUpdate_cons]
      exact ih _ (nodup_keysOf_setKey _ _ _ h)

theorem dedup_foldl_mem {α : Type} [DecidableEq α] (l acc : List α) (q : α) :
    q ∈ l.foldl (fun acc k => if k ∈ acc then acc else acc ++ [k]) acc ↔
      q ∈ acc ∨ q ∈ l := by
  induction l generalizing acc with
  | nil => simp
  | cons k0 rest ih =>
      by_cases h : k0 ∈ acc
      · rw [List.foldl_cons, if_pos h, ih]
        constructor
        · tauto
        · rintro (h1 | h1)
          · exact Or.inl h1
          · rcases List.mem_cons.mp h1 with h2 | h2
            · exact Or.inl (h2 ▸ h)
            · exact Or.inr h2
      · rw [List.foldl_cons, if_neg h, ih]
        simp only [List.mem_append, List.mem_singleton, List.mem_cons]
        tauto

theorem mem_dedupKeys (l : List Key) (q : Key) : q ∈ dedupKeys l ↔ q ∈ l := by
  rw [dedupKeys, dedup_foldl_mem]
  simp

theorem dedup_foldl_nodup {α : Type} [DecidableEq α] (l : List α) :
    ∀ acc : List α, acc.Nodup →
      (l.foldl (fun acc k => if k ∈ acc then acc else acc ++ [k]) acc).Nodup := by
  induction l with
  | nil => intro acc h; exact h
  | cons k0 rest ih =>
      intro acc h
      by_cases hm : k0 ∈ acc
      · rw [List.foldl_cons, if_pos hm]
        exact ih _ h
      · rw [List.foldl_cons, if_neg hm]
        refine ih _ ?_
        simpa [List.nodup_append, h] using hm

theorem nodup_dedupKeys (l : List Key) : (dedupKeys l).Nodup :=
  dedup_foldl_nodup l [] List.nodup_nil

theorem mem_dedupStrs (l : List String) (q : String) : q ∈ dedupStrs l ↔ q ∈ l := by
  rw [dedupStrs, dedup_foldl_mem]
  simp

theorem nodup_dedupStrs (l : List String) : (dedupStrs l).Nodup :=
  dedup_foldl_nodup l [] List.nodup_nil

theorem dedupKeys_eq_nil_iff (l : List Key) : dedupKeys l = [] ↔ l = [] := by
  constructor
  · intro h
    cases l with
    | nil => rfl
    | cons k rest =>
        exfalso
        have : k ∈ dedupKeys (k :: rest) := (mem_dedupKeys _ _).mpr (by simp)
        simp [h] at this
  · rintro rfl
    rfl

theorem set_m_eq_setmT (d : SDict) (p : List Key) (v : Val) (h : p ≠ []) :
    set_m d p v = some (setmT d p v, Ret.dict (setmT d p v)) := by
  induction p generalizing d with
  | nil => exact absurd rfl h
  | cons k rest ih =>
      cases rest with
      | nil => rfl
      | cons k2 rest2 =>
          have hne : (k2 :: rest2) ≠ ([] : List Key) := by simp
          simp only [set_m, setmT, ih _ hne]

theorem descend_append (x : Val) (p r : List Key) :
    descend x (p ++ r) = (descend x p).bind (fun y => descend y r) := by
  induction p generalizing x with
  | nil => simp [descend]
  | cons k p' ih =>
      cases x with
      | dict entries =>
          simp only [List.cons_append, descend]
          cases lookup entries k with
          | none => simp
          | some v => simp [ih]
      | int n => simp [descend]
      | vlist l => simp [descend]

theorem isDict_of_descend_cons (y : Val) (k : Key) (r : List Key) (w : Val)
    (h : descend y (k :: r) = some w) : y.isDict = true := by
  cases y with
  | dict entries => rfl
  | int n => simp [descend] at h
  | vlist l => simp [descend] at h

theorem descend_not_dict (y : Val) (k : Key) (r : List Key)
    (h : y.isDict = false) : descend y (k :: r) = none := by
  cases y with
  | dict entries => simp [Val.isDict] at h
  | int n => rfl
  | vlist l => rfl

theorem descend_setmT_self (d : SDict) (p : List Key) (v : Val) (h : p ≠ []) :
    descend (Val.dict (setmT d p v)) p = some v := by
  induction p generalizing d with
  | nil => exact absurd rfl h
  | cons k rest ih =>
      cases rest with
      | nil => simp [setmT, descend, lookup_setKey_self]
      | cons k2 rest2 =>
          simp only [setmT, descend, lookup_setKey_self]
          exact ih _ (by simp)

theorem descend_setmT_divergent (d : SDict) (p : List Key) (v : Val) (q : List Key)
    (hp : p ≠ []) (h1 : ¬ p <+: q) (h2 : ¬ q <+: p) :
    descend (Val.dict (setmT d p v)) q = descend (Val.dict d) q := by
  induction p generalizing d q with
  | nil => exact absurd rfl hp
  | cons k rest ih =>
      cases q with
      | nil => exact absurd (List.nil_prefix) h2
      | cons kq q' =>
          by_cases hk : kq = k
          · subst hk
            have h1' : ¬ rest <+: q' := fun hc => h1 (List.cons_prefix_cons.mpr ⟨rfl, hc⟩)
            have h2' : ¬ q' <+: rest := fun hc => h2 (List.cons_prefix_cons.mpr ⟨rfl, hc⟩)
            have hq' : q' ≠ [] := by
              rintro rfl
              exact h2' (List.nil_prefix)
            cases rest with
            | nil => exact absurd (List.cons_prefix_cons.mpr ⟨rfl, List.nil_prefix⟩) h1
            | cons k2 rest2 =>
                simp only [setmT, descend, lookup_setKey_self]
                rw [ih _ _ (by simp) h1' h2']
                obtain ⟨kq', q''⟩ : ∃ kq' q'', q' = kq' :: q'' := by
                  cases q' with
                  | nil => exact absurd rfl hq'
                  | cons a b => exact ⟨a, b, rfl⟩
                cases hl : lookup d kq with
                | none =>
                    obtain ⟨a, b, rfl⟩ : ∃ a b, q' = a :: b := by
                      cases q' with
                      | nil => exact absurd rfl hq'
                      | cons a b => exact ⟨a, b, rfl⟩
                    simp [descend, hl, lookup]
                | some y =>
                    cases y with
                    | dict sd => simp [descend, hl]
                    | int n =>
                        obtain ⟨a, b, rfl⟩ : ∃ a b, q' = a :: b := by
                          cases q' with
                          | nil => exact absurd rfl hq'
                          | cons a b => exact ⟨a, b, rfl⟩
                        simp [descend, hl, lookup]
                    | vlist l =>
                        obtain ⟨a, b, rfl⟩ : ∃ a b, q' = a :: b := by
                          cases q' with
                          | nil => exact absurd rfl hq'
                          | cons a b => exact ⟨a, b, rfl⟩
                        simp [descend, hl, lookup]
          · have hlk : lookup (setKey d k (Val.dict (setmT (match lookup d k with
                | some (Val.dict sd) => sd
                | _ => []) rest v)) ) kq = lookup d kq :=
              lookup_setKey_ne _ _ _ _ (Ne.symm hk)
            cases rest with
            | nil =>
                simp only [setmT, descend, lookup_setKey_ne _ _ _ _ (Ne.symm hk)]
            | cons k2 rest2 =>
                simp only [setmT, descend, hlk]

theorem leafAt_setmT (d : SDict) (p : List Key) (v : Val) (hp : p ≠ [])
    (hv : v.isDict = false) (q : List Key) (u : Val) :
    leafAt (setmT d p v) q u ↔
      (q = p ∧ u = v) ∨ ((¬ p <+: q ∧ ¬ q <+: p) ∧ leafAt d q u) := by
  by_cases hqp : q = p
  · subst hqp
    unfold leafAt
    rw [descend_setmT_self _ _ _ hp]
    constructor
    · rintro ⟨hu, _⟩
      exact Or.inl ⟨rfl, (Option.some.injEq .. ▸ hu).symm⟩
    · rintro (⟨_, rfl⟩ | ⟨⟨hnp, _⟩, _⟩)
      · exact ⟨rfl, hv⟩
      · exact absurd (List.prefix_refl q) hnp
  · by_cases h1 : p <+: q
    · obtain ⟨r, rfl⟩ := h1
      have hr : r ≠ [] := by
        rintro rfl
        exact hqp (by simp)
      obtain ⟨kr, r', rfl⟩ : ∃ kr r', r = kr :: r' := by
        cases r with
        | nil => exact absurd rfl hr
        | cons a b => exact ⟨a, b, rfl⟩
      unfold leafAt
      rw [descend_append, descend_setmT_self _ _ _ hp]
      rw [show (some v).bind (fun y => descend y (kr :: r')) = descend v (kr :: r') from rfl]
      rw [descend_not_dict _ _ _ hv]
      constructor
      · rintro ⟨h, _⟩
        exact absurd h (by simp)
      · rintro (⟨h, _⟩ | ⟨⟨hnp, _⟩, _⟩)
        · exact absurd h (by
            intro hc
            have : (p ++ kr :: r').length = p.length := by rw [hc]
            simp at this)
        · exact absurd ⟨kr :: r', rfl⟩ hnp
    · by_cases h2 : q <+: p
      · obtain ⟨r, hqr⟩ := h2
        have hr : r ≠ [] := by
          rintro rfl
          exact hqp (by simpa using hqr)
        obtain ⟨kr, r', rfl⟩ : ∃ kr r', r = kr :: r' := by
          cases r with
          | nil => exact absurd rfl hr
          | cons a b => exact ⟨a, b, rfl⟩
        unfold leafAt
        constructor
        · rintro ⟨hdes, hleaf⟩
          exfalso
          have hself : descend (Val.dict (setmT d p v)) (q ++ kr :: r') = some v := by
            rw [hqr]
            exact descend_setmT_self d p v hp
          rw [descend_append, hdes] at hself
          rw [show (some u).bind (fun y => descend y (kr :: r')) =
              descend u (kr :: r') from rfl] at hself
          have hdict := isDict_of_descend_cons _ _ _ _ hself
          rw [hdict] at hleaf
          exact absurd hleaf (by simp)
        · rintro (⟨h, _⟩ | ⟨⟨_, hnq⟩, _⟩)
          · exact absurd h hqp
          · exact absurd ⟨kr :: r', hqr⟩ hnq
      · unfold leafAt
        rw [descend_setmT_divergent _ _ _ _ hp h1 h2]
        constructor
        · intro h
          exact Or.inr ⟨⟨h1, h2⟩, h⟩
        · rintro (⟨h, _⟩ | ⟨_, h⟩)
          · exact absurd h hqp
          · exact h

theorem WFS_dict_nil : WFS (Val.dict []) := by
  refine WFS.dict [] ?_ ?_ ?_ <;> simp [keysOf]

theorem WFS_setKey (d : SDict) (k : Key) (v : Val) (hd : WFS (Val.dict d))
    (hk : ∃ str, k = Key.s str) (hv : WFS v) : WFS (Val.dict (setKey d k v)) := by
  cases hd with
  | dict _ hs hnd hvv =>
      refine WFS.dict _ ?_ (nodup_keysOf_setKey _ _ _ hnd) ?_
      · intro kv hkv
        rcases mem_setKey _ _ _ _ hkv with h | h
        · exact hs _ h
        · exact h ▸ hk
      · intro kv hkv
        rcases mem_setKey _ _ _ _ hkv with h | h
        · exact hvv _ h
        · exact h ▸ hv

theorem WFS_setmT (d : SDict) (p : List Key) (v : Val) (hp : p ≠ [])
    (hps : ∀ k ∈ p, ∃ str, k = Key.s str) (hv : WFS v) (hd : WFS (Val.dict d)) :
    WFS (Val.dict (setmT d p v)) := by
  induction p generalizing d with
  | nil => exact absurd rfl hp
  | cons k rest ih =>
      cases rest with
      | nil => exact WFS_setKey _ _ _ hd (hps k (by simp)) hv
      | cons k2 rest2 =>
          rw [show setmT d (k :: k2 :: rest2) v =
              setKey d k (Val.dict (setmT (match lookup d k with
                | some (Val.dict sd) => sd
                | _ => []) (k2 :: rest2) v)) from rfl]
          refine WFS_setKey _ _ _ hd (hps k (by simp)) ?_
          refine ih _ (by simp) (fun k' hk' => hps k' (by simp [hk'])) ?_
          cases hl : lookup d k with
          | none => exact WFS_dict_nil
          | some y =>
              cases y with
              | dict sd =>
                  cases hd with
                  | dict _ hs hnd hvv => exact hvv _ (lookup_eq_some_mem _ _ _ hl)
              | int n => exact WFS_dict_nil
              | vlist l => exact WFS_dict_nil

theorem WFS_of_not_dict (v : Val) (h : v.isDict = false) : WFS v := by
  cases v with
  | int n => exact WFS.int n
  | vlist l => exact WFS.vlist l
  | dict entries => simp [Val.isDict] at h

theorem WFS_dict_tail (kv : Key × Val) (rest : List (Key × Val))
    (h : WFS (Val.dict (kv :: rest))) : WFS (Val.dict rest) := by
  cases h with
  | dict _ hs hnd hv =>
      refine WFS.dict _ (fun kv' h' => hs _ (List.mem_cons_of_mem _ h'))
        ?_ (fun kv' h' => hv _ (List.mem_cons_of_mem _ h'))
      rw [keysOf_cons, List.nodup_cons] at hnd
      exact hnd.2

theorem pathLookup_append (L1 L2 : List (List Key × Val)) (q : List Key) :
    pathLookup (L1 ++ L2) q =
      match pathLookup L1 q with
      | some u => some u
      | none => pathLookup L2 q := by
  induction L1 with
  | nil => simp [pathLookup]
  | cons pr rest ih =>
      obtain ⟨p, v⟩ := pr
      by_cases h : p = q <;> simp [pathLookup, h, ih]

theorem pathLookup_eq_some_mem (L : List (List Key × Val)) (q : List Key) (u : Val)
    (h : pathLookup L q = some u) : (q, u) ∈ L := by
  induction L with
  | nil => simp [pathLookup] at h
  | cons pr rest ih =>
      obtain ⟨p, v⟩ := pr
      by_cases h' : p = q
      · subst h'
        simp [pathLookup] at h
        simp [h]
      · simp only [pathLookup, if_neg h'] at h
        exact List.mem_cons_of_mem _ (ih h)

theorem leafAt_nil (q : List Key) (u : Val) : ¬ leafAt [] q u := by
  rintro ⟨hdes, hleaf⟩
  cases q with
  | nil =>
      simp only [descend, Option.some.injEq] at hdes
      rw [← hdes] at hleaf
      simp [Val.isDict] at hleaf
  | cons k r => simp [descend, lookup] at hdes

theorem insertAll_invariant (R : List (List Key × Val)) (L : List (List Key × Val))
    (D : SDict) (hWF : WFS (Val.dict D))
    (hsR : ∀ pr ∈ R, (∀ k ∈ pr.1, ∃ str, k = Key.s str) ∧ pr.1 ≠ [] ∧ pr.2.isDict = false)
    (hdiv : ∀ pr ∈ R, ∀ pl ∈ L, ¬ pr.1 <+: pl.1 ∧ ¬ pl.1 <+: pr.1)
    (hpwR : R.Pairwise (fun a b => ¬ a.1 <+: b.1 ∧ ¬ b.1 <+: a.1))
    (hrel : ∀ q u, leafAt D q u ↔ pathLookup L q = some u) :
    ∃ D', insertAll D R = some D' ∧ WFS (Val.dict D') ∧
      ∀ q u, leafAt D' q u ↔ pathLookup (L ++ R) q = some u := by
  induction R generalizing L D with
  | nil =>
      refine ⟨D, rfl, hWF, ?_⟩
      simpa using hrel
  | cons pv R' ih =>
      obtain ⟨p, v⟩ := pv
      obtain ⟨hps, hpne, hpleaf⟩ := hsR (p, v) (by simp)
      have hstep : insertAll D ((p, v) :: R') = insertAll (setmT D p v) R' := by
        simp only [insertAll, set_m_eq_setmT D p v hpne]
      have hpw' := List.pairwise_cons.mp hpwR
      have hrel' : ∀ q u, leafAt (setmT D p v) q u ↔
          pathLookup (L ++ [(p, v)]) q = some u := by
        intro q u
        rw [leafAt_setmT D p v hpne hpleaf, pathLookup_append]
        by_cases hqp : q = p
        · subst hqp
          have hLnone : pathLookup L q = none := by
            cases hL : pathLookup L q with
            | none => rfl
            | some w =>
                have hm := pathLookup_eq_some_mem _ _ _ hL
                exact absurd (List.prefix_refl q) ((hdiv (q, v) (by simp) _ hm).1)
          rw [hLnone]
          have hred : (match (none : Option Val) with
              | some u => some u
              | none => pathLookup [(q, v)] q) = some v := by
            simp [pathLookup]
          rw [hred]
          constructor
          · rintro (⟨_, rfl⟩ | ⟨⟨hc, _⟩, _⟩)
            · rfl
            · exact absurd (List.prefix_refl q) hc
          · intro h
            cases h
            exact Or.inl ⟨rfl, rfl⟩
        · have hqp' : p ≠ q := fun h => hqp h.symm
          by_cases hdv : ¬ p <+: q ∧ ¬ q <+: p
          · cases hL : pathLookup L q with
            | some w =>
                constructor
                · rintro (⟨h, _⟩ | ⟨_, h⟩)
                  · exact absurd h hqp
                  · rw [hrel q u, hL] at h
                    exact h
                · intro h
                  refine Or.inr ⟨hdv, ?_⟩
                  rw [hrel q u, hL]
                  exact h
            | none =>
                constructor
                · rintro (⟨h, _⟩ | ⟨_, h⟩)
                  · exact absurd h hqp
                  · rw [hrel q u, hL] at h
                    exact absurd h (by simp)
                · intro h
                  simp [pathLookup, hqp'] at h
          · cases hL : pathLookup L q with
            | some w =>
                exfalso
                have hm := pathLookup_eq_some_mem _ _ _ hL
                have hd := hdiv (p, v) (by simp) _ hm
                exact absurd ⟨hd.1, hd.2⟩ hdv
            | none =>
                constructor
                · rintro (⟨h, _⟩ | ⟨h, _⟩)
                  · exact absurd h hqp
                  · exact absurd h hdv
                · intro h
                  simp [pathLookup, hqp'] at h
      have hWF' : WFS (Val.dict (setmT D p v)) :=
        WFS_setmT D p v hpne hps (WFS_of_not_dict v hpleaf) hWF
      obtain ⟨D', hD', hWFD', hrelD'⟩ := ih (L ++ [(p, v)]) (setmT D p v) hWF'
        (fun pr h => hsR pr (List.mem_cons_of_mem _ h))
        (by
          intro pr hpr pl hpl
          rcases List.mem_append.mp hpl with h | h
          · exact hdiv pr (List.mem_cons_of_mem _ hpr) pl h
          · have hpl' : pl = (p, v) := by simpa using h
            subst hpl'
            have := hpw'.1 pr hpr
            exact ⟨this.2, this.1⟩)
        hpw'.2 hrel'
      refine ⟨D', by rw [hstep]; exact hD', hWFD', ?_⟩
      intro q u
      rw [hrelD' q u]
      rw [show L ++ (p, v) :: R' = (L ++ [(p, v)]) ++ R' by simp]

theorem strsOfPath_map_s (ks : List String) : strsOfPath (ks.map Key.s) = some ks := by
  induction ks with
  | nil => rfl
  | cons str rest ih => simp [strsOfPath, ih]

theorem tupOfPath_map_s (ks : List String) : tupOfPath (ks.map Key.s) = some (Key.tup ks) := by
  rw [tupOfPath, strsOfPath_map_s]
  rfl

theorem keysOf_append (a b : SDict) : keysOf (a ++ b) = keysOf a ++ keysOf b :=
  List.map_append _ _ _

theorem mem_keysOf (l : SDict) (q : Key) : q ∈ keysOf l ↔ ∃ u, (q, u) ∈ l := by
  constructor
  · intro h
    obtain ⟨kv, hkv, hq⟩ := List.mem_map.mp h
    exact ⟨kv.2, by rwa [show (q, kv.2) = kv from Prod.ext hq.symm rfl]⟩
  · rintro ⟨u, hu⟩
    exact List.mem_map.mpr ⟨(q, u), hu, rfl⟩

theorem emit_mem_shape (ks : List String) (c : Val) (q : Key) (u : Val)
    (h : (q, u) ∈ emit ks c) : ∃ r, q = Key.tup (ks ++ r) := by
  induction ks, c using emit.induct generalizing q u with
  | case1 ks n =>
      simp only [emit, List.mem_singleton] at h
      refine ⟨[], ?_⟩
      simp only [Prod.ext_iff] at h
      simpa using h.1
  | case2 ks l =>
      simp only [emit, List.mem_singleton] at h
      refine ⟨[], ?_⟩
      simp only [Prod.ext_iff] at h
      simpa using h.1
  | case3 ks => simp [emit] at h
  | case4 ks str v rest ih1 ih2 =>
      rcases List.mem_append.mp (by simpa [emit] using h) with h1 | h1
      · obtain ⟨r, hr⟩ := ih1 _ _ h1
        exact ⟨str :: r, by simpa using hr⟩
      · exact ih2 _ _ h1
  | case5 ks t v rest ih =>
      simp only [emit] at h
      exact ih _ _ h

theorem emit_mem_shape_dict (ks : List String) (entries : List (Key × Val)) (q : Key) (u : Val)
    (h : (q, u) ∈ emit ks (Val.dict entries)) :
    ∃ str r', q = Key.tup (ks ++ str :: r') ∧ Key.s str ∈ keysOf entries := by
  induction entries generalizing q u with
  | nil => simp [emit] at h
  | cons kv rest ih =>
      obtain ⟨k0, v0⟩ := kv
      cases k0 with
      | s str =>
          rcases List.mem_append.mp (by simpa [emit] using h) with h1 | h1
          · obtain ⟨r, hr⟩ := emit_mem_shape _ _ _ _ h1
            exact ⟨str, r, by simpa using hr, by simp [keysOf_cons]⟩
          · obtain ⟨str', r', hq, hm⟩ := ih _ _ h1
            exact ⟨str', r', hq, by simp [keysOf_cons, hm]⟩
      | tup t =>
          simp only [emit] at h
          obtain ⟨str', r', hq, hm⟩ := ih _ _ h
          exact ⟨str', r', hq, by simp [keysOf_cons, hm]⟩

theorem emit_sib_keys (str : String) (v : Val) (rest : List (Key × Val)) (ks : List String)
    (hnotin : Key.s str ∉ keysOf rest) (q : Key)
    (h1 : q ∈ keysOf (emit (ks ++ [str]) v)) : q ∉ keysOf (emit ks (Val.dict rest)) := by
  intro h2
  obtain ⟨u1, hm1⟩ := (mem_keysOf _ _).mp h1
  obtain ⟨u2, hm2⟩ := (mem_keysOf _ _).mp h2
  obtain ⟨r1, hr1⟩ := emit_mem_shape _ _ _ _ hm1
  obtain ⟨str2, r2, hr2, hmem2⟩ := emit_mem_shape_dict _ _ _ _ hm2
  rw [hr1] at hr2
  have : ks ++ [str] ++ r1 = ks ++ str2 :: r2 := Key.tup.injEq .. ▸ hr2
  rw [List.append_assoc] at this
  have h3 : str :: r1 = str2 :: r2 := by
    have := congrArg (List.drop ks.length) this
    simpa using this
  have : str = str2 := (List.cons.injEq .. ▸ h3).1
  exact hnotin (this ▸ hmem2)

theorem emit_mem_iff (ks : List String) (c : Val) (hWF : WFS c) (r : List String) (u : Val) :
    (Key.tup (ks ++ r), u) ∈ emit ks c ↔
      descend c (r.map Key.s) = some u ∧ u.isDict = false := by
  induction ks, c using emit.induct generalizing r u with
  | case1 ks n =>
      cases r with
      | nil =>
          rw [List.append_nil]
          constructor
          · intro h
            have hu : u = Val.int n := by simpa [emit, Prod.ext_iff] using h
            subst hu
            exact ⟨rfl, rfl⟩
          · rintro ⟨h, -⟩
            have hu : u = Val.int n := by simpa [descend] using h.symm
            subst hu
            simp [emit]
      | cons s r' =>
          simp only [emit, List.mem_singleton, Prod.ext_iff, List.map_cons, descend]
          constructor
          · rintro ⟨h, _⟩
            exfalso
            have := congrArg (fun k => match k with | Key.tup l => l.length | _ => 0) h
            simp at this
          · rintro ⟨h, _⟩
            cases h
  | case2 ks l =>
      cases r with
      | nil =>
          rw [List.append_nil]
          constructor
          · intro h
            have hu : u = Val.vlist l := by simpa [emit, Prod.ext_iff] using h
            subst hu
            exact ⟨rfl, rfl⟩
          · rintro ⟨h, -⟩
            have hu : u = Val.vlist l := by simpa [descend] using h.symm
            subst hu
            simp [emit]
      | cons s r' =>
          simp only [emit, List.mem_singleton, Prod.ext_iff, List.map_cons, descend]
          constructor
          · rintro ⟨h, _⟩
            exfalso
            have := congrArg (fun k => match k with | Key.tup l => l.length | _ => 0) h
            simp at this
          · rintro ⟨h, _⟩
            cases h
  | case3 ks =>
      cases r with
      | nil =>
          constructor
          · intro h
            simp [emit] at h
          · rintro ⟨h, hleaf⟩
            have hu : u = Val.dict [] := by simpa [descend] using h.symm
            subst hu
            simp [Val.isDict] at hleaf
      | cons s r' => simp [emit, descend, lookup]
  | case4 ks str v rest ih1 ih2 =>
      have hWFv : WFS v := by
        cases hWF with
        | dict _ hs hnd hv => exact hv (Key.s str, v) (by simp)
      have hWFrest : WFS (Val.dict rest) := WFS_dict_tail _ _ hWF
      have hstrnotin : Key.s str ∉ keysOf rest := by
        cases hWF with
        | dict _ hs hnd hv =>
            rw [keysOf_cons, List.nodup_cons] at hnd
            exact hnd.1
      cases r with
      | nil =>
          constructor
          · intro h
            exfalso
            rcases List.mem_append.mp (by simpa [emit] using h) with h1 | h1
            · obtain ⟨r1, hr1⟩ := emit_mem_shape _ _ _ _ h1
              have : ks ++ [] = ks ++ [str] ++ r1 := by
                have := Key.tup.injEq .. ▸ hr1
                simpa using this
              rw [List.append_assoc] at this
              have := congrArg (List.drop ks.length) this
              simp at this
            · obtain ⟨str2, r2, hr2, _⟩ := emit_mem_shape_dict _ _ _ _ h1
              have : ks ++ [] = ks ++ str2 :: r2 := by
                have := Key.tup.injEq .. ▸ hr2
                simpa using this
              have := congrArg (List.drop ks.length) this
              simp at this
          · rintro ⟨h, hleaf⟩
            simp only [List.map_nil, descend, Option.some.injEq] at h
            rw [← h] at hleaf
            simp [Val.isDict] at hleaf
      | cons s r' =>
          by_cases hs : s = str
          · subst hs
            have hleft : (Key.tup (ks ++ s :: r'), u) ∈ emit (ks ++ [s]) v ↔
                descend v (r'.map Key.s) = some u ∧ u.isDict = false := by
              rw [show ks ++ s :: r' = (ks ++ [s]) ++ r' by simp]
              exact ih1 hWFv r' u
            have hnotright : (Key.tup (ks ++ s :: r'), u) ∉ emit ks (Val.dict rest) := by
              intro hm
              obtain ⟨str2, r2, hr2, hmem2⟩ := emit_mem_shape_dict _ _ _ _ hm
              have : ks ++ s :: r' = ks ++ str2 :: r2 := Key.tup.injEq .. ▸ hr2
              have h3 := congrArg (List.drop ks.length) this
              simp at h3
              exact hstrnotin (h3.1 ▸ hmem2)
            rw [show emit ks (Val.dict ((Key.s s, v) :: rest)) =
                emit (ks ++ [s]) v ++ emit ks (Val.dict rest) by simp only [emit]]
            rw [List.mem_append]
            simp only [List.map_cons, descend, lookup, if_pos rfl]
            tauto
          · have hnotleft : (Key.tup (ks ++ s :: r'), u) ∉ emit (ks ++ [str]) v := by
              intro hm
              obtain ⟨r1, hr1⟩ := emit_mem_shape _ _ _ _ hm
              have : ks ++ s :: r' = ks ++ [str] ++ r1 := Key.tup.injEq .. ▸ hr1
              rw [List.append_assoc] at this
              have h3 := congrArg (List.drop ks.length) this
              simp at h3
              exact hs h3.1
            rw [show emit ks (Val.dict ((Key.s str, v) :: rest)) =
                emit (ks ++ [str]) v ++ emit ks (Val.dict rest) by simp only [emit]]
            rw [List.mem_append]
            have hlook : lookup ((Key.s str, v) :: rest) (Key.s s) = lookup rest (Key.s s) := by
              have hne : Key.s str ≠ Key.s s := by
                intro h
                injection h with h2
                exact hs h2.symm
              simp [lookup, hne]
            simp only [List.map_cons, descend, hlook]
            have := ih2 hWFrest (s :: r') u
            simp only [List.map_cons, descend] at this
            tauto
  | case5 ks t v rest ih =>
      exfalso
      cases hWF with
      | dict _ hs hnd hv =>
          obtain ⟨str, hstr⟩ := hs (Key.tup t, v) (by simp)
          exact Key.noConfusion hstr

theorem emit_nodup_keys (ks : List String) (c : Val) (hWF : WFS c) :
    (keysOf (emit ks c)).Nodup := by
  induction ks, c using emit.induct with
  | case1 ks n => simp [emit, keysOf]
  | case2 ks l => simp [emit, keysOf]
  | case3 ks => simp [emit, keysOf]
  | case4 ks str v rest ih1 ih2 =>
      have hWFv : WFS v := by
        cases hWF with
        | dict _ hs hnd hv => exact hv (Key.s str, v) (by simp)
      have hWFrest : WFS (Val.dict rest) := WFS_dict_tail _ _ hWF
      have hstrnotin : Key.s str ∉ keysOf rest := by
        cases hWF with
        | dict _ hs hnd hv =>
            rw [keysOf_cons, List.nodup_cons] at hnd
            exact hnd.1
      rw [show emit ks (Val.dict ((Key.s str, v) :: rest)) =
          emit (ks ++ [str]) v ++ emit ks (Val.dict rest) by simp only [emit], keysOf_append,
        List.nodup_append]
      exact ⟨ih1 hWFv, ih2 hWFrest, fun q hq => emit_sib_keys str v rest ks hstrnotin q hq⟩
  | case5 ks t v rest ih =>
      exfalso
      cases hWF with
      | dict _ hs hnd hv =>
          obtain ⟨str, hstr⟩ := hs (Key.tup t, v) (by simp)
          exact Key.noConfusion hstr

theorem dicts_to_tup_eq (ks : List String) (c : Val) (hWF : WFS c) (acc : SDict)
    (hdisj : ∀ q ∈ keysOf (emit ks c), q ∉ keysOf acc) :
    dicts_to_tup acc (ks.map Key.s) c = some (acc ++ emit ks c) := by
  induction ks, c using emit.induct generalizing acc with
  | case1 ks n =>
      rw [show dicts_to_tup acc (ks.map Key.s) (Val.int n) =
          (tupOfPath (ks.map Key.s)).map (fun tk => setKey acc tk (Val.int n)) by
            simp only [dicts_to_tup],
        tupOfPath_map_s]
      have : Key.tup ks ∉ keysOf acc := hdisj _ (by simp [emit, keysOf])
      simp [setKey_not_mem _ _ _ this, emit]
  | case2 ks l =>
      rw [show dicts_to_tup acc (ks.map Key.s) (Val.vlist l) =
          (tupOfPath (ks.map Key.s)).map (fun tk => setKey acc tk (Val.vlist l)) by
            simp only [dicts_to_tup],
        tupOfPath_map_s]
      have : Key.tup ks ∉ keysOf acc := hdisj _ (by simp [emit, keysOf])
      simp [setKey_not_mem _ _ _ this, emit]
  | case3 ks => simp [dicts_to_tup, emit]
  | case4 ks str v rest ih1 ih2 =>
      have hWFv : WFS v := by
        cases hWF with
        | dict _ hs hnd hv => exact hv (Key.s str, v) (by simp)
      have hWFrest : WFS (Val.dict rest) := WFS_dict_tail _ _ hWF
      have hstrnotin : Key.s str ∉ keysOf rest := by
        cases hWF with
        | dict _ hs hnd hv =>
            rw [keysOf_cons, List.nodup_cons] at hnd
            exact hnd.1
      have hemit : emit ks (Val.dict ((Key.s str, v) :: rest)) =
          emit (ks ++ [str]) v ++ emit ks (Val.dict rest) := by simp only [emit]
      have hd1 : ∀ q ∈ keysOf (emit (ks ++ [str]) v), q ∉ keysOf acc := by
        intro q hq
        exact hdisj q (by rw [hemit, keysOf_append]; exact List.mem_append_left _ hq)
      have hd2 : ∀ q ∈ keysOf (emit ks (Val.dict rest)), q ∉ keysOf (acc ++ emit (ks ++ [str]) v) := by
        intro q hq
        rw [keysOf_append, List.mem_append]
        rintro (h | h)
        · exact hdisj q (by rw [hemit, keysOf_append]; exact List.mem_append_right _ hq) h
        · exact emit_sib_keys str v rest ks hstrnotin q h hq
      rw [show dicts_to_tup acc (ks.map Key.s) (Val.dict ((Key.s str, v) :: rest)) =
          (match dicts_to_tup acc (ks.map Key.s ++ [Key.s str]) v with
           | none => none
           | some s' => dicts_to_tup s' (ks.map Key.s) (Val.dict rest)) by
            simp only [dicts_to_tup]]
      rw [show ks.map Key.s ++ [Key.s str] = (ks ++ [str]).map Key.s by simp]
      rw [ih1 hWFv acc hd1]
      show dicts_to_tup (acc ++ emit (ks ++ [str]) v) (ks.map Key.s) (Val.dict rest) =
        some (acc ++ emit ks (Val.dict ((Key.s str, v) :: rest)))
      rw [ih2 hWFrest _ hd2, hemit, List.append_assoc]
  | case5 ks t v rest ih =>
      exfalso
      cases hWF with
      | dict _ hs hnd hv =>
          obtain ⟨str, hstr⟩ := hs (Key.tup t, v) (by simp)
          exact Key.noConfusion hstr

theorem to_dictup_eq (D : SDict) (hWF : WFS (Val.dict D)) :
    to_dictup D = some (emit [] (Val.dict D)) := by
  have := dicts_to_tup_eq [] (Val.dict D) hWF [] (by simp [keysOf])
  simpa [to_dictup] using this

theorem keyPath_all_s (k : Key) : ∀ k' ∈ keyPath k, ∃ str, k' = Key.s str := by
  cases k with
  | s str =>
      intro k' hk'
      obtain ⟨c, _, rfl⟩ := List.mem_map.mp hk'
      exact ⟨String.mk [c], rfl⟩
  | tup l =>
      intro k' hk'
      obtain ⟨str, _, rfl⟩ := List.mem_map.mp hk'
      exact ⟨str, rfl⟩

theorem map_s_injective (a b : List String) (h : a.map Key.s = b.map Key.s) : a = b := by
  induction a generalizing b with
  | nil => cases b <;> simp_all
  | cons x xs ih =>
      cases b with
      | nil => simp at h
      | cons y ys =>
          simp only [List.map_cons, List.cons.injEq, Key.s.injEq] at h
          exact List.cons.injEq .. ▸ ⟨h.1, ih _ h.2⟩

theorem option_eq_of_some_iff {α : Type} (x y : Option α)
    (h : ∀ a, x = some a ↔ y = some a) : x = y := by
  cases x with
  | none =>
      cases y with
      | none => rfl
      | some b => exact absurd ((h b).mpr rfl) (by simp)
  | some a => exact ((h a).mp rfl).symm

theorem pathLookup_keyPath (m : SDict) (hT : ∀ kv ∈ m, kv.1.isTup = true) (l : List String) :
    pathLookup (m.map (fun kv => (keyPath kv.1, kv.2))) (l.map Key.s) =
      lookup m (Key.tup l) := by
  induction m with
  | nil => rfl
  | cons kv rest ih =>
      obtain ⟨k0, v0⟩ := kv
      obtain ⟨t, rfl⟩ : ∃ t, k0 = Key.tup t := by
        have := hT (k0, v0) (by simp)
        cases k0 with
        | s str => simp [Key.isTup] at this
        | tup t => exact ⟨t, rfl⟩
      have hrec := ih (fun kv h => hT kv (List.mem_cons_of_mem _ h))
      have keyPath_tup : keyPath (Key.tup t) = t.map Key.s := rfl
      simp only [List.map_cons, pathLookup, lookup, keyPath_tup]
      by_cases he : t = l
      · subst he
        simp
      · have h1 : t.map Key.s ≠ l.map Key.s := fun hc => he (map_s_injective _ _ hc)
        have h2 : Key.tup t ≠ Key.tup l := fun hc => he (Key.tup.injEq .. ▸ hc)
        simp only [if_neg h1, if_neg h2]
        exact hrec

theorem lookup_all_tup_s (m : SDict) (hT : ∀ kv ∈ m, kv.1.isTup = true) (str : String) :
    lookup m (Key.s str) = none := by
  rw [lookup_eq_none_iff]
  intro hm
  obtain ⟨u, hu⟩ := (mem_keysOf _ _).mp hm
  have := hT _ hu
  simp [Key.isTup] at this

/-- The nested dictionary `to_dictdict` builds, characterized by its leaves:
it exists whenever every unpacked key path is nonempty and the paths are
pairwise prefix-free, and then holds value `u` as a leaf at path `q` exactly
when the entry list maps `q` to `u`. -/
theorem to_dictdict_leaves (m : SDict)
    (hNE : ∀ kv ∈ m, keyPath kv.1 ≠ [])
    (hL : ∀ kv ∈ m, kv.2.isDict = false)
    (hPW : (m.map (fun kv => keyPath kv.1)).Pairwise (fun a b => ¬ a <+: b ∧ ¬ b <+: a)) :
    ∃ D, to_dictdict m = some D ∧ WFS (Val.dict D) ∧
      ∀ q u, leafAt D q u ↔
        pathLookup (m.map (fun kv => (keyPath kv.1, kv.2))) q = some u := by
  have hmain := insertAll_invariant (m.map (fun kv => (keyPath kv.1, kv.2))) [] []
    WFS_dict_nil
    (by
      intro pr hpr
      obtain ⟨kv, hkv, rfl⟩ := List.mem_map.mp hpr
      exact ⟨keyPath_all_s kv.1, hNE kv hkv, hL kv hkv⟩)
    (by intro pr _ pl hpl; simp at hpl)
    (by
      have hthis := hPW
      have heq : (m.map (fun kv => (keyPath kv.1, kv.2))).map Prod.fst =
          m.map (fun kv => keyPath kv.1) := by
        rw [List.map_map]
        rfl
      rw [← heq] at hthis
      exact (List.pairwise_map.mp hthis).imp (fun h => h))
    (by
      intro q u
      constructor
      · intro h
        exact absurd h (leafAt_nil q u)
      · intro h
        simp [pathLookup] at h)
  obtain ⟨D, hD, hWFD, hrel⟩ := hmain
  exact ⟨D, hD, hWFD, by simpa using hrel⟩

theorem setmT_nil_nestPath (p : List Key) (v : Val) (h : p ≠ []) :
    setmT [] p v = nestPath p v := by
  induction p with
  | nil => exact absurd rfl h
  | cons k rest ih =>
      cases rest with
      | nil => rfl
      | cons k2 r2 =>
          show setKey [] k (Val.dict (setmT (match lookup [] k with
            | some (Val.dict sd) => sd
            | _ => []) (k2 :: r2) v)) = nestPath (k :: k2 :: r2) v
          rw [show (match lookup ([] : SDict) k with
            | some (Val.dict sd) => sd
            | _ => ([] : SDict)) = [] from rfl]
          rw [ih (by simp)]
          rfl

/-- C1 (counterexample): the round-trip fails on a mapping whose keys are all
tuples: with the dictionary value `{'b': 1}` under key `('a',)`,
`to_dictdict` then `to_dictup` produces `{('a','b'): 1}`, which drops the key
`('a',)` — the two mappings do not agree as key→value functions. -/
theorem to_dictdict_to_dictup_not_roundtrip_cex :
    (to_dictdict [(Key.tup ["a"], Val.dict [(Key.s "b", Val.int 1)])]).bind to_dictup =
      some [(Key.tup ["a", "b"], Val.int 1)] ∧
    lookup [(Key.tup ["a", "b"], Val.int 1)] (Key.tup ["a"]) = none ∧
    lookup [(Key.tup ["a"], Val.dict [(Key.s "b", Val.int 1)])] (Key.tup ["a"]) =
      some (Val.dict [(Key.s "b", Val.int 1)]) := by
  refine ⟨?_, rfl, rfl⟩
  rw [show to_dictdict [(Key.tup ["a"], Val.dict [(Key.s "b", Val.int 1)])] =
      some [(Key.s "a", Val.dict [(Key.s "b", Val.int 1)])] from rfl]
  simp only [Option.bind_some, to_dictup]
  simp [dicts_to_tup, tupOfPath, strsOfPath, setKey]

/-- C1 (amended): for every mapping whose keys are all tuples that unpack to
nonempty, pairwise prefix-free key paths, and whose values are not
themselves dictionaries, `to_dictdict` followed by `to_dictup` restores the
mapping up to key order: the result agrees with the original as a key→value
function. -/
theorem to_dictdict_to_dictup_roundtrip (m : SDict)
    (hT : ∀ kv ∈ m, kv.1.isTup = true)
    (hNE : ∀ kv ∈ m, keyPath kv.1 ≠ [])
    (hL : ∀ kv ∈ m, kv.2.isDict = false)
    (hPW : (m.map (fun kv => keyPath kv.1)).Pairwise (fun a b => ¬ a <+: b ∧ ¬ b <+: a)) :
    ∃ D F, to_dictdict m = some D ∧ to_dictup D = some F ∧
      ∀ k, lookup F k = lookup m k := by
  obtain ⟨D, hD, hWFD, hrel⟩ := to_dictdict_leaves m hNE hL hPW
  refine ⟨D, emit [] (Val.dict D), hD, to_dictup_eq D hWFD, ?_⟩
  intro k
  cases k with
  | s str =>
      rw [lookup_all_tup_s m hT str, lookup_eq_none_iff]
      intro hm
      obtain ⟨u, hu⟩ := (mem_keysOf _ _).mp hm
      obtain ⟨r, hr⟩ := emit_mem_shape [] (Val.dict D) _ _ hu
      exact Key.noConfusion hr
  | tup l =>
      apply option_eq_of_some_iff
      intro u
      rw [← pathLookup_keyPath m hT l, ← hrel (l.map Key.s) u]
      constructor
      · intro h
        have hm := lookup_eq_some_mem _ _ _ h
        exact (emit_mem_iff [] (Val.dict D) hWFD l u).mp (by simpa using hm)
      · intro h
        have hmem := (emit_mem_iff [] (Val.dict D) hWFD l u).mpr h
        exact mem_lookup_eq_some _ _ _ (emit_nodup_keys [] _ hWFD) (by simpa using hmem)

/-- C1 (witness): the amended round-trip at the mapping
`{('a','b'): 1, ('c',): 2}`. -/
theorem to_dictdict_to_dictup_roundtrip_witness :
    ∃ D F, to_dictdict [(Key.tup ["a", "b"], Val.int 1), (Key.tup ["c"], Val.int 2)] = some D ∧
      to_dictup D = some F ∧
      ∀ k, lookup F k =
        lookup [(Key.tup ["a", "b"], Val.int 1), (Key.tup ["c"], Val.int 2)] k :=
  to_dictdict_to_dictup_roundtrip _ (by decide) (by decide) (by decide) (by decide)

/-- C5 (counterexample): a non-tuple key does not always remain a top-level
scalar entry: the two-character string key `"ab"` is unpacked into its
characters and expanded into the nested path `{'a': {'b': 7}}`; the key
`"ab"` is absent from the result although it mapped to `7` in the source. -/
theorem to_dictdict_string_key_cex :
    to_dictdict [(Key.s "ab", Val.int 7)] =
      some [(Key.s "a", Val.dict [(Key.s "b", Val.int 7)])] ∧
    (to_dictdict [(Key.s "ab", Val.int 7)]).bind (fun D => lookup D (Key.s "ab")) = none ∧
    lookup [(Key.s "ab", Val.int 7)] (Key.s "ab") = some (Val.int 7) :=
  ⟨rfl, rfl, rfl⟩

/-- C5 (amended): `to_dictdict` expands every key — tuple or not — into the
nested path of its unpacked components: a tuple key into its elements, a
scalar string key into its one-character substrings.  On a single entry the
result is exactly the nested chain along that path, so a non-tuple key stays
a top-level scalar entry with unchanged value precisely when it is a
one-character string. -/
theorem to_dictdict_expands_every_key (k : Key) (v : Val) (h : keyPath k ≠ []) :
    to_dictdict [(k, v)] = some (nestPath (keyPath k) v) := by
  rw [to_dictdict]
  simp only [List.map_cons, List.map_nil, insertAll, set_m_eq_setmT [] (keyPath k) v h]
  rw [setmT_nil_nestPath _ _ h]

/-- C5 (witness): the single-entry expansion at the string key `"ab"`. -/
theorem to_dictdict_expands_every_key_witness :
    to_dictdict [(Key.s "ab", Val.int 7)] =
      some (nestPath (keyPath (Key.s "ab")) (Val.int 7)) :=
  to_dictdict_expands_every_key (Key.s "ab") (Val.int 7) (by decide)

/-- C2 (counterexample): a call supplying both a positional mapping and a
keyword override does not fail: it succeeds and applies both, so `update`
does not mirror the "multiple values" semantics the claim describes. -/
theorem update_accepts_args_and_kwargs_cex :
    update [] [[(Key.s "a", Val.int 1)]] [("b", Val.int 2)] =
      Except.ok ([(Key.s "a", Val.int 1), (Key.s "b", Val.int 2)], Ret.none) := by
  simp [update, mergeLoop, plainUpdate, setKey, lookup]

/-- C2 (amended): `update` fails (raises `TypeError`) exactly when more than
one positional argument is supplied; a single positional mapping combined
with keyword overrides is accepted (keyword entries are applied last). -/
theorem update_raises_iff_multiple_positional
    (self : SDict) (args : List SDict) (kwargs : List (String × Val)) :
    (update self args kwargs).toOption.isSome = true ↔ args.length ≤ 1 := by
  cases args with
  | nil => simp [update, Except.toOption]
  | cons a t =>
      cases t with
      | nil => simp [update, Except.toOption]
      | cons b t2 => simp [update, Except.toOption]

/-- C3 (counterexample): `update` mutates in place but returns the host
`None`, not `self`: on `{}.merge_update({'a': 1})` the new state is
`{'a': 1}` while the returned value is `None`, which is not the dictionary. -/
theorem update_returns_none_cex :
    update [] [[(Key.s "a", Val.int 1)]] [] =
      Except.ok ([(Key.s "a", Val.int 1)], Ret.none) ∧
    Ret.none ≠ Ret.dict [(Key.s "a", Val.int 1)] := by
  refine ⟨?_, fun h => Ret.noConfusion h⟩
  simp [update, mergeLoop, plainUpdate, setKey, lookup]

/-- C3 (amended): `set_m` mutates `self` in place and returns the mutated
`self` (whenever it does not fail); `update` mutates `self` in place but its
body has no return statement, so it returns `None` instead of `self`. -/
theorem set_m_update_return_values :
    (∀ (d : SDict) (p : List Key) (v : Val),
        (set_m d p v).map Prod.snd = (set_m d p v).map (fun out => Ret.dict out.1)) ∧
    (∀ (self : SDict) (args : List SDict) (kwargs : List (String × Val)),
        (update self args kwargs).toOption.map Prod.snd =
          (update self args kwargs).toOption.map (fun _ => Ret.none)) := by
  constructor
  · intro d p v
    cases p with
    | nil => rfl
    | cons k rest =>
        rw [set_m_eq_setmT d (k :: rest) v (by simp)]
        rfl
  · intro self args kwargs
    cases args with
    | nil => rfl
    | cons a t =>
        cases t with
        | nil => rfl
        | cons b t2 => rfl

/-- C4 (counterexample): when an intermediate value along the path is not a
mapping, `get_m` does not return the `None` sentinel: on `{'a': 1}` the call
`get_m('a', 'b')` indexes the integer `1`, raising an uncaught `TypeError`. -/
theorem get_m_raises_cex :
    get_m [(Key.s "a", Val.int 1)] [Key.s "a", Key.s "b"] = GetmRes.typeError ∧
    GetmRes.typeError ≠ GetmRes.pyNone :=
  ⟨rfl, fun h => GetmRes.noConfusion h⟩

theorem get_m_val_characterization (args : List Key) (v0 : Val) :
    (∀ u, get_m_val v0 args = GetmRes.found u ↔ descend v0 args = some u) ∧
    (get_m_val v0 args = GetmRes.pyNone ↔ ∃ p k rest, args = p ++ k :: rest ∧
      ∃ E, descend v0 p = some (Val.dict E) ∧ lookup E k = none) ∧
    (get_m_val v0 args = GetmRes.typeError ↔ ∃ p k rest, args = p ++ k :: rest ∧
      ∃ u, descend v0 p = some u ∧ u.isDict = false) := by
  induction args generalizing v0 with
  | nil =>
      refine ⟨?_, ?_, ?_⟩
      · intro u
        simp [get_m_val, descend]
      · simp only [get_m_val]
        constructor
        · intro h
          exact GetmRes.noConfusion h
        · rintro ⟨p, k, rest, hsplit, -⟩
          cases p <;> simp at hsplit
      · simp only [get_m_val]
        constructor
        · intro h
          exact GetmRes.noConfusion h
        · rintro ⟨p, k, rest, hsplit, -⟩
          cases p <;> simp at hsplit
  | cons k0 rest0 ih =>
      cases v0 with
      | dict E =>
          cases hl : lookup E k0 with
          | some v1 =>
              have hred : get_m_val (Val.dict E) (k0 :: rest0) = get_m_val v1 rest0 := by
                simp [get_m_val, hl]
              have hdes : descend (Val.dict E) (k0 :: rest0) = descend v1 rest0 := by
                simp [descend, hl]
              refine ⟨?_, ?_, ?_⟩
              · intro u
                rw [hred, hdes]
                exact (ih v1).1 u
              · rw [hred, (ih v1).2.1]
                constructor
                · rintro ⟨p, k, rest, rfl, E2, hd, hlk⟩
                  refine ⟨k0 :: p, k, rest, rfl, E2, ?_, hlk⟩
                  rw [show descend (Val.dict E) (k0 :: p) = descend v1 p by
                    simp [descend, hl]]
                  exact hd
                · rintro ⟨p, k, rest, hsplit, E2, hd, hlk⟩
                  cases p with
                  | nil =>
                      simp only [List.nil_append, List.cons.injEq] at hsplit
                      obtain ⟨rfl, rfl⟩ := hsplit
                      have hE : Val.dict E = Val.dict E2 := by
                        simpa [descend] using hd
                      rw [show E2 = E from (Val.dict.injEq .. ▸ hE).symm] at hlk
                      rw [hlk] at hl
                      exact Option.noConfusion hl
                  | cons kp p' =>
                      simp only [List.cons_append, List.cons.injEq] at hsplit
                      obtain ⟨rfl, rfl⟩ := hsplit
                      refine ⟨p', k, rest, rfl, E2, ?_, hlk⟩
                      rw [show descend (Val.dict E) (k0 :: p') = descend v1 p' by
                        simp [descend, hl]] at hd
                      exact hd
              · rw [hred, (ih v1).2.2]
                constructor
                · rintro ⟨p, k, rest, rfl, u, hd, hu⟩
                  refine ⟨k0 :: p, k, rest, rfl, u, ?_, hu⟩
                  rw [show descend (Val.dict E) (k0 :: p) = descend v1 p by
                    simp [descend, hl]]
                  exact hd
                · rintro ⟨p, k, rest, hsplit, u, hd, hu⟩
                  cases p with
                  | nil =>
                      have hE : Val.dict E = u := by
                        simpa [descend] using hd
                      rw [← hE] at hu
                      simp [Val.isDict] at hu
                  | cons kp p' =>
                      simp only [List.cons_append, List.cons.injEq] at hsplit
                      obtain ⟨rfl, rfl⟩ := hsplit
                      refine ⟨p', k, rest, rfl, u, ?_, hu⟩
                      rw [show descend (Val.dict E) (k0 :: p') = descend v1 p' by
                        simp [descend, hl]] at hd
                      exact hd
          | none =>
              have hred : get_m_val (Val.dict E) (k0 :: rest0) = GetmRes.pyNone := by
                simp [get_m_val, hl]
              refine ⟨?_, ?_, ?_⟩
              · intro u
                rw [hred]
                constructor
                · intro h
                  exact GetmRes.noConfusion h
                · intro h
                  rw [show descend (Val.dict E) (k0 :: rest0) = none by
                    simp [descend, hl]] at h
                  exact Option.noConfusion h
              · rw [hred]
                constructor
                · intro _
                  exact ⟨[], k0, rest0, rfl, E, by simp [descend], hl⟩
                · intro _
                  rfl
              · rw [hred]
                constructor
                · intro h
                  exact GetmRes.noConfusion h
                · rintro ⟨p, k, rest, hsplit, u, hd, hu⟩
                  cases p with
                  | nil =>
                      have hE : Val.dict E = u := by
                        simpa [descend] using hd
                      rw [← hE] at hu
                      simp [Val.isDict] at hu
                  | cons kp p' =>
                      simp only [List.cons_append, List.cons.injEq] at hsplit
                      obtain ⟨rfl, rfl⟩ := hsplit
                      rw [show descend (Val.dict E) (k0 :: p') = none by
                        simp [descend, hl]] at hd
                      exact Option.noConfusion hd
      | int n =>
          refine ⟨?_, ?_, ?_⟩
          · intro u
            simp only [get_m_val, descend]
            constructor
            · intro h
              exact GetmRes.noConfusion h
            · intro h
              exact Option.noConfusion h
          · simp only [get_m_val]
            constructor
            · intro h
              exact GetmRes.noConfusion h
            · rintro ⟨p, k, rest, hsplit, E2, hd, -⟩
              cases p with
              | nil => simp [descend] at hd
              | cons kp p' => simp [descend] at hd
          · simp only [get_m_val]
            constructor
            · intro _
              exact ⟨[], k0, rest0, rfl, Val.int n, by simp [descend], rfl⟩
            · intro _
              trivial
      | vlist l =>
          refine ⟨?_, ?_, ?_⟩
          · intro u
            simp only [get_m_val, descend]
            constructor
            · intro h
              exact GetmRes.noConfusion h
            · intro h
              exact Option.noConfusion h
          · simp only [get_m_val]
            constructor
            · intro h
              exact GetmRes.noConfusion h
            · rintro ⟨p, k, rest, hsplit, E2, hd, -⟩
              cases p with
              | nil => simp [descend] at hd
              | cons kp p' => simp [descend] at hd
          · simp only [get_m_val]
            constructor
            · intro _
              exact ⟨[], k0, rest0, rfl, Val.vlist l, by simp [descend], rfl⟩
            · intro _
              trivial

/-- C4 (amended): `get_m` descends through nested mappings following the
keys in order and returns the value found; it returns the `None` sentinel
exactly when the walk reaches a nested mapping from which the next key is
absent (a caught `KeyError`); but when the walk reaches a non-mapping value
with keys still to process, it raises an uncaught `TypeError` instead of
returning the sentinel. -/
theorem get_m_characterization (d : SDict) (args : List Key) :
    (∀ u, get_m d args = GetmRes.found u ↔ descend (Val.dict d) args = some u) ∧
    (get_m d args = GetmRes.pyNone ↔ ∃ p k rest, args = p ++ k :: rest ∧
      ∃ E, descend (Val.dict d) p = some (Val.dict E) ∧ lookup E k = none) ∧
    (get_m d args = GetmRes.typeError ↔ ∃ p k rest, args = p ++ k :: rest ∧
      ∃ u, descend (Val.dict d) p = some u ∧ u.isDict = false) :=
  get_m_val_characterization args (Val.dict d)

theorem lookup_plainUpdate_restrict (b : SDict) (d : SDict) (ks : List Key) (q : Key) :
    lookup (plainUpdate b (ks.filterMap (fun k => (lookup d k).map (fun v => (k, v))))) q =
      if q ∈ ks ∧ (lookup d q).isSome = true then lookup d q else lookup b q := by
  induction ks generalizing b with
  | nil => simp [plainUpdate]
  | cons k0 rest ih =>
      cases hk : lookup d k0 with
      | none =>
          rw [List.filterMap_cons]
          rw [show ((lookup d k0).map (fun v => (k0, v))) = none by rw [hk]; rfl]
          rw [ih]
          by_cases hq : q = k0
          · subst hq
            rw [if_neg (by
              rintro ⟨-, hs⟩
              rw [hk] at hs
              simp at hs)]
            rw [if_neg (by
              rintro ⟨-, hs⟩
              rw [hk] at hs
              simp at hs)]
          · by_cases hr : q ∈ rest
            · simp [hr, hq]
            · simp [hr, hq]
      | some v0 =>
          rw [List.filterMap_cons]
          rw [show ((lookup d k0).map (fun v => (k0, v))) = some (k0, v0) by rw [hk]; rfl]
          rw [plainUpdate_cons, ih]
          by_cases hq : q = k0
          · subst hq
            by_cases hr : q ∈ rest
            · rw [if_pos ⟨hr, (by simp [hk] : (lookup d q).isSome = true)⟩]
              rw [if_pos ⟨List.mem_cons_self q rest, (by simp [hk] :
                (lookup d q).isSome = true)⟩]
            · rw [if_neg (fun hc => hr hc.1)]
              rw [if_pos ⟨List.mem_cons_self q rest, (by simp [hk] :
                (lookup d q).isSome = true)⟩]
              rw [lookup_setKey_self, hk]
          · have hcond : (q ∈ k0 :: rest ∧ (lookup d q).isSome = true) ↔
                (q ∈ rest ∧ (lookup d q).isSome = true) := by
              constructor
              · rintro ⟨hm, hs⟩
                rcases List.mem_cons.mp hm with h | h
                · exact absurd h hq
                · exact ⟨h, hs⟩
              · rintro ⟨hm, hs⟩
                exact ⟨List.mem_cons_of_mem _ hm, hs⟩
            rw [lookup_setKey_ne _ _ _ _ (Ne.symm hq)]
            by_cases hc : q ∈ rest ∧ (lookup d q).isSome = true
            · rw [if_pos hc, if_pos (hcond.mpr hc)]
            · rw [if_neg hc, if_neg (fun h => hc (hcond.mp h))]

theorem lookup_filterRestrict (d : SDict) (ks : List Key) (q : Key) :
    lookup (ofPairs (ks.filterMap (fun k => (lookup d k).map (fun v => (k, v))))) q =
      if q ∈ ks then lookup d q else none := by
  rw [ofPairs, lookup_plainUpdate_restrict]
  by_cases h : q ∈ ks
  · by_cases hs : (lookup d q).isSome = true
    · rw [if_pos ⟨h, hs⟩, if_pos h]
    · rw [if_neg (fun hc => hs hc.2), if_pos h]
      rw [Option.not_isSome_iff_eq_none] at hs
      rw [hs]
      rfl
  · rw [if_neg (fun hc => h hc.1), if_neg h]
    rfl

theorem mem_filterMap_scalarStr (l : List Key) (s : String) :
    s ∈ l.filterMap scalarStr ↔ Key.s s ∈ l := by
  induction l with
  | nil => simp
  | cons k rest ih =>
      cases k with
      | s str =>
          rw [show List.filterMap scalarStr (Key.s str :: rest) =
              str :: List.filterMap scalarStr rest by
            simp [List.filterMap_cons, scalarStr]]
          simp only [List.mem_cons, ih, Key.s.injEq]
      | tup t =>
          rw [show List.filterMap scalarStr (Key.tup t :: rest) =
              List.filterMap scalarStr rest by
            simp [List.filterMap_cons, scalarStr]]
          rw [ih]
          simp

theorem ravelKeys_scalar (l : List Key) (h : ∀ k ∈ l, k.isTup = false) :
    ravelKeys l = some (l.filterMap scalarStr) := by
  cases l with
  | nil => rfl
  | cons k rest =>
      cases k with
      | s str =>
          rw [show ravelKeys (Key.s str :: rest) =
              (if rest.all (fun k => !k.isTup) then
                some (str :: rest.filterMap scalarStr) else none) from rfl]
          rw [if_pos (List.all_eq_true.mpr (fun k hk => by
            rw [h k (List.mem_cons_of_mem _ hk)]
            rfl))]
          rw [show List.filterMap scalarStr (Key.s str :: rest) =
              str :: List.filterMap scalarStr rest by
            simp [List.filterMap_cons, scalarStr]]
      | tup t =>
          have := h (Key.tup t) (by simp)
          simp [Key.isTup] at this

theorem compLoop_all (d : SDict) (l : List Key)
    (hall : ∀ k ∈ l, (lookup d k).isSome = true) :
    ∀ acc, compLoop d acc l =
      Except.ok (plainUpdate acc (l.filterMap (fun k => (lookup d k).map (fun v => (k, v))))) := by
  induction l with
  | nil => intro acc; rfl
  | cons k0 rest ih =>
      intro acc
      obtain ⟨v0, hk⟩ := Option.isSome_iff_exists.mp (hall k0 (by simp))
      rw [show compLoop d acc (k0 :: rest) =
          (match lookup d k0 with
           | some v => compLoop d (setKey acc k0 v) rest
           | none => Except.error (FilterErr.keyError k0)) from rfl, hk]
      show compLoop d (setKey acc k0 v0) rest = _
      rw [ih (fun k hkr => hall k (List.mem_cons_of_mem _ hkr)) (setKey acc k0 v0)]
      rw [List.filterMap_cons]
      rw [show ((lookup d k0).map (fun v => (k0, v))) = some (k0, v0) by rw [hk]; rfl]
      rfl

theorem scalar_keysOf_mem (d : SDict) (s : String) :
    s ∈ (keysOf d).filterMap scalarStr ↔ (lookup d (Key.s s)).isSome = true := by
  rw [mem_filterMap_scalarStr, lookup_isSome_iff]

theorem filter_scalar_red (d : SDict) (ks : List Key)
    (hd : ∀ kv ∈ d, kv.1.isTup = false) (hks : ∀ k ∈ ks, k.isTup = false) :
    filter d (FilterIdx.many ks) true =
      (if dedupStrs ((ks.filterMap scalarStr).filter
          (fun s => decide (s ∉ (keysOf d).filterMap scalarStr))) = [] then
        compLoop d [] ks
      else
        Except.error (FilterErr.badElems (dedupStrs ((ks.filterMap scalarStr).filter
          (fun s => decide (s ∉ (keysOf d).filterMap scalarStr)))))) := by
  have hdk : ∀ k ∈ keysOf d, k.isTup = false := by
    intro k hk
    obtain ⟨u, hu⟩ := (mem_keysOf _ _).mp hk
    exact hd (k, u) hu
  rw [show filter d (FilterIdx.many ks) true =
      (match ravelKeys ks, ravelKeys (keysOf d) with
       | none, _ => Except.error FilterErr.valueError
       | some _, none => Except.error FilterErr.valueError
       | some c1, some c2 =>
          if dedupStrs (c1.filter (fun s => decide (s ∉ c2))) = [] then compLoop d [] ks
          else Except.error (FilterErr.badElems
            (dedupStrs (c1.filter (fun s => decide (s ∉ c2)))))) from rfl]
  rw [ravelKeys_scalar ks hks, ravelKeys_scalar (keysOf d) hdk]

/-- C6 (counterexample): `np.setdiff1d` flattens tuple keys into their
component strings and fails outright on mixed scalar/tuple key sets.  On
`{'a': 1, ('b','c'): 2}`, `filter(['a'], check=True)` raises the numpy
coercion error although the only requested key is present (the claim demands
the restriction `{'a': 1}`).  On `{('a','b'): 1, ('c','d'): 2}`,
`filter([('b','a'), ('d','c')], check=True)` finds no missing *components*,
then raises a bare `KeyError` naming only `('b','a')` — not the claimed
missing-key error listing both absent keys `('b','a')` and `('d','c')`. -/
theorem filter_numpy_cex :
    filter [(Key.s "a", Val.int 1), (Key.tup ["b", "c"], Val.int 2)]
      (FilterIdx.many [Key.s "a"]) true = Except.error FilterErr.valueError ∧
    (lookup [(Key.s "a", Val.int 1), (Key.tup ["b", "c"], Val.int 2)]
      (Key.s "a")).isSome = true ∧
    filter [(Key.tup ["a", "b"], Val.int 1), (Key.tup ["c", "d"], Val.int 2)]
      (FilterIdx.many [Key.tup ["b", "a"], Key.tup ["d", "c"]]) true =
      Except.error (FilterErr.keyError (Key.tup ["b", "a"])) ∧
    lookup [(Key.tup ["a", "b"], Val.int 1), (Key.tup ["c", "d"], Val.int 2)]
      (Key.tup ["b", "a"]) = none ∧
    lookup [(Key.tup ["a", "b"], Val.int 1), (Key.tup ["c", "d"], Val.int 2)]
      (Key.tup ["d", "c"]) = none :=
  ⟨rfl, rfl, rfl, rfl, rfl⟩

/-- C6 (amended): for mappings and requested key lists whose keys are all
scalar strings — where `np.setdiff1d` genuinely compares keys — `filter` with
`check=true` fails with the missing-key error listing exactly the
(deduplicated) requested keys absent from the mapping whenever at least one
is absent, and otherwise returns the new mapping restricted to the requested
keys; with `check=false` it never fails (for any keys) and silently drops
the absent keys.  With tuple keys the absence check runs on tuple components
instead, and mixed scalar/tuple key sets fail in the array coercion. -/
theorem filter_check_behavior (d : SDict) (ks : List Key) :
    (∃ r, filter d (FilterIdx.many ks) false = Except.ok r ∧
        ∀ q, lookup r q = if q ∈ ks then lookup d q else none) ∧
    ((∀ kv ∈ d, kv.1.isTup = false) → (∀ k ∈ ks, k.isTup = false) →
      (∃ k ∈ ks, (lookup d k).isNone = true) →
      ∃ bad, filter d (FilterIdx.many ks) true =
          Except.error (FilterErr.badElems bad) ∧ bad ≠ [] ∧ bad.Nodup ∧
        (∀ s, s ∈ bad ↔ Key.s s ∈ ks ∧ (lookup d (Key.s s)).isNone = true)) ∧
    ((∀ kv ∈ d, kv.1.isTup = false) → (∀ k ∈ ks, k.isTup = false) →
      (∀ k ∈ ks, (lookup d k).isSome = true) →
      ∃ r, filter d (FilterIdx.many ks) true = Except.ok r ∧
        ∀ q, lookup r q = if q ∈ ks then lookup d q else none) := by
  refine ⟨⟨_, rfl, fun q => lookup_filterRestrict d ks q⟩, ?_, ?_⟩
  · rintro hd hks ⟨k, hk, hnone⟩
    have hred := filter_scalar_red d ks hd hks
    obtain ⟨s0, rfl⟩ : ∃ s0, k = Key.s s0 := by
      have := hks k hk
      cases k with
      | s str => exact ⟨str, rfl⟩
      | tup t => simp [Key.isTup] at this
    have hs0 : s0 ∈ (ks.filterMap scalarStr).filter
        (fun s => decide (s ∉ (keysOf d).filterMap scalarStr)) := by
      rw [List.mem_filter]
      refine ⟨(mem_filterMap_scalarStr ks s0).mpr hk, ?_⟩
      rw [decide_eq_true_eq, scalar_keysOf_mem d]
      intro hc
      rw [Option.isNone_iff_eq_none] at hnone
      rw [hnone] at hc
      exact Bool.noConfusion hc
    have hmem : s0 ∈ dedupStrs ((ks.filterMap scalarStr).filter
        (fun s => decide (s ∉ (keysOf d).filterMap scalarStr))) :=
      (mem_dedupStrs _ _).mpr hs0
    have hne := List.ne_nil_of_mem hmem
    rw [hred, if_neg hne]
    refine ⟨_, rfl, hne, nodup_dedupStrs _, ?_⟩
    intro s
    rw [mem_dedupStrs, List.mem_filter, mem_filterMap_scalarStr,
      decide_eq_true_eq, scalar_keysOf_mem d]
    constructor
    · rintro ⟨h1, h2⟩
      refine ⟨h1, ?_⟩
      rw [Option.isNone_iff_eq_none, ← Option.not_isSome_iff_eq_none]
      intro hc
      exact h2 hc
    · rintro ⟨h1, h2⟩
      refine ⟨h1, ?_⟩
      rw [Option.isNone_iff_eq_none] at h2
      rw [h2]
      simp
  · intro hd hks hall
    have hred := filter_scalar_red d ks hd hks
    have hnil : (ks.filterMap scalarStr).filter
        (fun s => decide (s ∉ (keysOf d).filterMap scalarStr)) = [] := by
      rw [List.filter_eq_nil_iff]
      intro s hs
      rw [Bool.not_eq_true, decide_eq_false_iff_not, Classical.not_not,
        scalar_keysOf_mem d]
      exact hall (Key.s s) ((mem_filterMap_scalarStr ks s).mp hs)
    rw [hred, hnil]
    rw [show dedupStrs ([] : List String) = [] from rfl, if_pos rfl]
    rw [compLoop_all d ks hall []]
    exact ⟨_, rfl, fun q => lookup_filterRestrict d ks q⟩

/-- C6 (witness): on the scalar-keyed `{'a': 1}`, `filter(['a','z'],
check=true)` fails listing `['z']`, and `filter(['a'], check=true)` returns
`{'a': 1}`. -/
theorem filter_check_behavior_witness :
    (∃ bad, filter [(Key.s "a", Val.int 1)] (FilterIdx.many [Key.s "a", Key.s "z"]) true =
        Except.error (FilterErr.badElems bad) ∧ bad ≠ [] ∧ bad.Nodup ∧
        (∀ s, s ∈ bad ↔ Key.s s ∈ [Key.s "a", Key.s "z"] ∧
          (lookup [(Key.s "a", Val.int 1)] (Key.s s)).isNone = true)) ∧
    (∃ r, filter [(Key.s "a", Val.int 1)] (FilterIdx.many [Key.s "a"]) true = Except.ok r ∧
        ∀ q, lookup r q =
          if q ∈ [Key.s "a"] then lookup [(Key.s "a", Val.int 1)] q else none) :=
  ⟨(filter_check_behavior [(Key.s "a", Val.int 1)] [Key.s "a", Key.s "z"]).2.1
      (by decide) (by decide) (by decide),
   (filter_check_behavior [(Key.s "a", Val.int 1)] [Key.s "a"]).2.2
      (by decide) (by decide) (by decide)⟩

theorem lookup_fill (d : SDict) (ks : List Key) (default : Val) (q : Key)
    (hnd : (keysOf d).Nodup) :
    lookup (fill_with_default d ks default) q =
      match lookup d q with
      | some v => some v
      | none => if q ∈ ks then some default else none := by
  rw [fill_with_default]
  cases hq : lookup d q with
  | some v => exact lookup_plainUpdate_of_lookup _ _ _ _ hnd hq
  | none =>
      rw [lookup_plainUpdate_of_not_mem _ _ _ ((lookup_eq_none_iff d q).mp hq)]
      rw [ofPairs, lookup_plainUpdate_constMap]
      by_cases hk : q ∈ ks
      · rw [if_pos hk, if_pos hk]
      · rw [if_neg hk, if_neg hk]
        rfl

/-- C7: `fill_with_default(keys, default)` returns a mapping that contains
every requested key; a requested key present in the source keeps its source
value (source entries override the defaults), and a requested key absent
from the source is mapped to the default. -/
theorem fill_with_default_requested_keys (d : SDict) (ks : List Key) (default : Val)
    (hnd : (keysOf d).Nodup) :
    ∀ k ∈ ks, lookup (fill_with_default d ks default) k =
      some ((lookup d k).getD default) := by
  intro k hk
  rw [lookup_fill d ks default k hnd]
  cases hq : lookup d k with
  | some v => simp
  | none => simp [hk]

/-- C7 (witness): on `{'a': 5}` with requested keys `['a','b','c']` and
default `0`, the requested key `'b'` is mapped to the default. -/
theorem fill_with_default_requested_keys_witness :
    lookup (fill_with_default [(Key.s "a", Val.int 5)] [Key.s "a", Key.s "b", Key.s "c"]
        (Val.int 0)) (Key.s "b") =
      some ((lookup [(Key.s "a", Val.int 5)] (Key.s "b")).getD (Val.int 0)) :=
  fill_with_default_requested_keys _ _ _ (by decide) (Key.s "b") (by decide)

/-- C10: `fill_with_default` also preserves every source entry whose key was
not requested: the result's key set is the union of the requested keys and
the source keys, and every source entry appears unchanged in the result. -/
theorem fill_with_default_preserves_entries (d : SDict) (ks : List Key) (default : Val)
    (hnd : (keysOf d).Nodup) :
    (∀ k, ((lookup (fill_with_default d ks default) k).isSome = true ↔
        k ∈ ks ∨ k ∈ keysOf d)) ∧
    (∀ k, k ∈ keysOf d → lookup (fill_with_default d ks default) k = lookup d k) := by
  constructor
  · intro k
    rw [lookup_fill d ks default k hnd]
    cases hq : lookup d k with
    | some v =>
        have hm : k ∈ keysOf d := by
          rw [← lookup_isSome_iff]
          simp [hq]
        simp [hm]
    | none =>
        have hm : k ∉ keysOf d := (lookup_eq_none_iff d k).mp hq
        by_cases hk : k ∈ ks <;> simp [hk, hm]
  · intro k hkm
    rw [lookup_fill d ks default k hnd]
    cases hq : lookup d k with
    | some v => rfl
    | none => exact absurd hkm ((lookup_eq_none_iff d k).mp hq)

/-- C10 (witness): on `{'a': 5}` with requested keys `['b']` the entry
`'a' ↦ 5` is preserved and the key set is `{'a','b'}`. -/
theorem fill_with_default_preserves_entries_witness :
    (∀ k, ((lookup (fill_with_default [(Key.s "a", Val.int 5)] [Key.s "b"]
        (Val.int 0)) k).isSome = true ↔
        k ∈ [Key.s "b"] ∨ k ∈ keysOf [(Key.s "a", Val.int 5)])) ∧
    (∀ k, k ∈ keysOf [(Key.s "a", Val.int 5)] →
      lookup (fill_with_default [(Key.s "a", Val.int 5)] [Key.s "b"] (Val.int 0)) k =
        lookup [(Key.s "a", Val.int 5)] k) :=
  fill_with_default_preserves_entries _ _ _ (by decide)

mutual

theorem fromDictVal_id : ∀ v : Val, fromDictVal v = v
  | Val.int _ => rfl
  | Val.vlist _ => rfl
  | Val.dict entries => by
      rw [show fromDictVal (Val.dict entries) = Val.dict (fromDictEntries entries) by
        simp only [fromDictVal]]
      rw [fromDictEntries_id entries]

theorem fromDictEntries_id : ∀ l : List (Key × Val), fromDictEntries l = l
  | [] => rfl
  | (k, v) :: rest => by
      rw [show fromDictEntries ((k, v) :: rest) = (k, fromDictVal v) :: fromDictEntries rest by
        simp only [fromDictEntries]]
      rw [fromDictVal_id v, fromDictEntries_id rest]

end

theorem from_dict_id (d : SDict) : from_dict d = d := fromDictEntries_id d

/-- C8: `_update` (merged_copy) leaves the state of `self` unchanged and
returns a new mapping equal to a deep copy of `self` with `update(other)`
applied — that is, exactly the mapping `update` would turn `self` into. -/
theorem merged_copy_pure (m other : SDict) :
    ∃ r, update m [other] [] = Except.ok (r, Ret.none) ∧
      merged_copy m other = (m, r) := by
  refine ⟨mergeLoop m (plainUpdate (plainUpdate [] other) []), rfl, ?_⟩
  rw [merged_copy, from_dict_id]
  rfl

theorem keysContaining_append_single (P : SDict) (k : Key) (v : Val) (e : Key) :
    keysContaining (P ++ [(k, v)]) e =
      keysContaining P e ++ (if e ∈ elemsOf v then [k] else []) := by
  by_cases h : e ∈ elemsOf v <;>
    simp [keysContaining, List.filter_append, List.filter_cons, h]

theorem mem_allElems (d : SDict) (e : Key) :
    e ∈ allElems d ↔ ∃ kv ∈ d, e ∈ elemsOf kv.2 := by
  induction d with
  | nil => simp [allElems]
  | cons kv rest ih =>
      rw [show allElems (kv :: rest) = elemsOf kv.2 ++ allElems rest from rfl,
        List.mem_append, ih]
      constructor
      · rintro (h | ⟨kv', hkv', he⟩)
        · exact ⟨kv, by simp, h⟩
        · exact ⟨kv', by simp [hkv'], he⟩
      · rintro ⟨kv', hkv', he⟩
        rcases List.mem_cons.mp hkv' with rfl | h
        · exact Or.inl he
        · exact Or.inr ⟨kv', h, he⟩

theorem elemsOfValues_eq (d : SDict) (hl : ∀ kv ∈ d, kv.2.isVlist = true) :
    elemsOfValues d = some (allElems d) := by
  induction d with
  | nil => rfl
  | cons kv rest ih =>
      obtain ⟨k, v⟩ := kv
      obtain ⟨l, rfl⟩ : ∃ l, v = Val.vlist l := by
        have := hl (k, v) (by simp)
        cases v with
        | vlist l => exact ⟨l, rfl⟩
        | int n => simp [Val.isVlist] at this
        | dict E => simp [Val.isVlist] at this
      rw [show elemsOfValues ((k, Val.vlist l) :: rest) =
          (elemsOfValues rest).map (fun ls => l ++ ls) from rfl]
      rw [ih (fun kv h => hl kv (List.mem_cons_of_mem _ h))]
      rfl

theorem plainUpdate_fresh (pairs : List (Key × Val)) (b : SDict)
    (hdisj : ∀ kv ∈ pairs, kv.1 ∉ keysOf b) (hnd : (pairs.map Prod.fst).Nodup) :
    plainUpdate b pairs = b ++ pairs := by
  induction pairs generalizing b with
  | nil => simp [plainUpdate]
  | cons kv rest ih =>
      obtain ⟨k0, v0⟩ := kv
      rw [List.map_cons, List.nodup_cons] at hnd
      rw [plainUpdate_cons]
      rw [show (k0, v0).1 = k0 from rfl, show (k0, v0).2 = v0 from rfl]
      rw [setKey_not_mem _ _ _ (hdisj (k0, v0) (by simp))]
      rw [ih _ ?_ hnd.2]
      · simp
      · intro kv hkv
        rw [keysOf_append, List.mem_append]
        rintro (h | h)
        · exact hdisj kv (List.mem_cons_of_mem _ hkv) h
        · have : kv.1 = k0 := by simpa [keysOf] using h
          exact hnd.1 (this ▸ List.mem_map.mpr ⟨kv, hkv, rfl⟩)

theorem appendElems_spec (l : List Key) (out : SDict) (k : Key)
    (hnd : l.Nodup)
    (hinit : ∀ el ∈ l, ∃ cur, lookup out el = some (Val.vlist cur)) :
    ∃ out', appendElems out l k = some out' ∧
      keysOf out' = keysOf out ∧
      (∀ q, q ∉ l → lookup out' q = lookup out q) ∧
      (∀ q ∈ l, ∀ cur, lookup out q = some (Val.vlist cur) →
        lookup out' q = some (Val.vlist (cur ++ [k]))) := by
  induction l generalizing out with
  | nil =>
      refine ⟨out, rfl, rfl, fun q _ => rfl, fun q hq => absurd hq (by simp)⟩
  | cons el0 rest ih =>
      obtain ⟨cur0, hcur0⟩ := hinit el0 (by simp)
      have happ : appendKey out el0 k =
          some (setKey out el0 (Val.vlist (cur0 ++ [k]))) := by
        rw [appendKey, hcur0]
      rw [List.nodup_cons] at hnd
      have hinit1 : ∀ el ∈ rest,
          ∃ cur, lookup (setKey out el0 (Val.vlist (cur0 ++ [k]))) el =
            some (Val.vlist cur) := by
        intro el hel
        have hne : el0 ≠ el := fun h => hnd.1 (h ▸ hel)
        rw [lookup_setKey_ne _ _ _ _ hne]
        exact hinit el (by simp [hel])
      obtain ⟨out', hout', hkeys, hnotin, hin⟩ := ih _ hnd.2 hinit1
      refine ⟨out', ?_, ?_, ?_, ?_⟩
      · rw [show appendElems out (el0 :: rest) k =
            (match appendKey out el0 k with
             | none => none
             | some o => appendElems o rest k) from rfl, happ]
        exact hout'
      · rw [hkeys]
        exact keysOf_setKey_mem _ _ _ (by rw [← lookup_isSome_iff]; simp [hcur0])
      · intro q hq
        have hq0 : q ≠ el0 := fun h => hq (by simp [h])
        have hqr : q ∉ rest := fun h => hq (by simp [h])
        rw [hnotin q hqr, lookup_setKey_ne _ _ _ _ (Ne.symm hq0)]
      · intro q hq cur hcur
        rcases List.mem_cons.mp hq with rfl | hq1
        · have hc : cur = cur0 := by
            rw [hcur0] at hcur
            have h2 : Val.vlist cur = Val.vlist cur0 := by
              injection hcur with h3
              exact h3.symm
            injection h2
          subst hc
          rw [hnotin q hnd.1, lookup_setKey_self]
        · have hne : q ≠ el0 := fun h => hnd.1 (h ▸ hq1)
          apply hin q hq1
          rw [lookup_setKey_ne _ _ _ _ (Ne.symm hne)]
          exact hcur

theorem appendLoop_spec (R : SDict) (P : SDict) (out : SDict) (N : List Key)
    (hl : ∀ kv ∈ R, kv.2.isVlist = true)
    (hnd : ∀ kv ∈ R, (elemsOf kv.2).Nodup)
    (hsub : ∀ kv ∈ R, ∀ e ∈ elemsOf kv.2, e ∈ N)
    (hinv : ∀ q, lookup out q =
      if q ∈ N then some (Val.vlist (keysContaining P q)) else none) :
    ∃ out', appendLoop out R = some out' ∧
      keysOf out' = keysOf out ∧
      ∀ q, lookup out' q =
        if q ∈ N then some (Val.vlist (keysContaining (P ++ R) q)) else none := by
  induction R generalizing P out with
  | nil =>
      refine ⟨out, rfl, rfl, ?_⟩
      simpa using hinv
  | cons kv R' ih =>
      obtain ⟨k, v⟩ := kv
      obtain ⟨l, rfl⟩ : ∃ l, v = Val.vlist l := by
        have := hl (k, v) (by simp)
        cases v with
        | vlist l => exact ⟨l, rfl⟩
        | int n => simp [Val.isVlist] at this
        | dict E => simp [Val.isVlist] at this
      have hlnd : l.Nodup := by
        have := hnd (k, Val.vlist l) (by simp)
        simpa [elemsOf] using this
      have hinit : ∀ el ∈ l, ∃ cur, lookup out el = some (Val.vlist cur) := by
        intro el hel
        have hN : el ∈ N := hsub (k, Val.vlist l) (by simp) el (by simpa [elemsOf] using hel)
        exact ⟨keysContaining P el, by rw [hinv el, if_pos hN]⟩
      obtain ⟨out1, hout1, hkeys1, hnotin1, hin1⟩ := appendElems_spec l out k hlnd hinit
      have hinv1 : ∀ q, lookup out1 q =
          if q ∈ N then some (Val.vlist (keysContaining (P ++ [(k, Val.vlist l)]) q))
          else none := by
        intro q
        rw [keysContaining_append_single]
        by_cases hq : q ∈ l
        · have hN : q ∈ N := hsub (k, Val.vlist l) (by simp) q (by simpa [elemsOf] using hq)
          rw [if_pos hN]
          rw [show (if q ∈ elemsOf (Val.vlist l) then [k] else []) = [k] by
            simp [elemsOf, hq]]
          exact hin1 q hq _ (by rw [hinv q, if_pos hN])
        · rw [hnotin1 q hq, hinv q]
          rw [show (if q ∈ elemsOf (Val.vlist l) then [k] else []) = [] by
            simp [elemsOf, hq]]
          simp
      obtain ⟨out', hout', hkeys', hinv'⟩ := ih (P ++ [(k, Val.vlist l)]) out1
        (fun kv h => hl kv (List.mem_cons_of_mem _ h))
        (fun kv h => hnd kv (List.mem_cons_of_mem _ h))
        (fun kv h => hsub kv (List.mem_cons_of_mem _ h))
        hinv1
      refine ⟨out', ?_, by rw [hkeys', hkeys1], ?_⟩
      · rw [show appendLoop out ((k, Val.vlist l) :: R') =
            (match pyIter (Val.vlist l) with
             | none => none
             | some el => match appendElems out el k with
                | none => none
                | some o => appendLoop o R') from rfl]
        rw [show pyIter (Val.vlist l) = some l from rfl]
        show (match appendElems out l k with
          | none => none
          | some o => appendLoop o R') = some out'
        rw [hout1]
        exact hout'
      · intro q
        rw [hinv' q]
        rw [show P ++ [(k, Val.vlist l)] ++ R' = P ++ (k, Val.vlist l) :: R' by simp]

/-- C9 (counterexample): elements are appended once per occurrence, not as a
membership set: on `{'x': ['a','a']}` the result maps `'a'` to `['x','x']`,
not to the list `['x']` of keys whose value list contains `'a'`. -/
theorem list_reverse_duplicates_cex :
    list_reverse [(Key.s "x", Val.vlist [Key.s "a", Key.s "a"])] =
      some [(Key.s "a", Val.vlist [Key.s "x", Key.s "x"])] ∧
    [Key.s "x", Key.s "x"] ≠ [Key.s "x"] :=
  ⟨rfl, by decide⟩

/-- C9 (amended): for every mapping whose values are all lists without
duplicate elements, `list_reverse` succeeds and returns a mapping whose key
set is exactly the deduplicated union of all elements across all value lists
(each element exactly once as an output key), and which maps each such
element `e` to the list of original keys whose value list contains `e`, in
source iteration order.  (With duplicate elements, a key is appended once
per occurrence.) -/
theorem list_reverse_spec (d : SDict)
    (hl : ∀ kv ∈ d, kv.2.isVlist = true)
    (hnd : ∀ kv ∈ d, (elemsOf kv.2).Nodup) :
    ∃ out, list_reverse d = some out ∧
      (keysOf out).Nodup ∧
      (∀ e, e ∈ keysOf out ↔ ∃ kv ∈ d, e ∈ elemsOf kv.2) ∧
      (∀ e ∈ keysOf out, lookup out e = some (Val.vlist (keysContaining d e))) := by
  have hout0 : ∀ q, lookup (ofPairs ((dedupKeys (allElems d)).map
      (fun k => (k, Val.vlist [])))) q =
      if q ∈ dedupKeys (allElems d) then some (Val.vlist (keysContaining [] q))
      else none := by
    intro q
    rw [ofPairs, lookup_plainUpdate_constMap]
    rw [show keysContaining [] q = [] from rfl]
    rfl
  obtain ⟨out, hloop, hkeys, hinv⟩ := appendLoop_spec d []
    (ofPairs ((dedupKeys (allElems d)).map (fun k => (k, Val.vlist []))))
    (dedupKeys (allElems d)) hl hnd
    (fun kv hkv e he =>
      (mem_dedupKeys _ _).mpr ((mem_allElems d e).mpr ⟨kv, hkv, he⟩))
    hout0
  have hcomp : List.map Prod.fst ((dedupKeys (allElems d)).map
      (fun k => (k, Val.vlist []))) = dedupKeys (allElems d) := by
    induction dedupKeys (allElems d) with
    | nil => rfl
    | cons a t ih => rw [List.map_cons, List.map_cons, ih]
  have hkeys0 : keysOf (ofPairs ((dedupKeys (allElems d)).map
      (fun k => (k, Val.vlist [])))) = dedupKeys (allElems d) := by
    rw [ofPairs, plainUpdate_fresh _ _ (by simp [keysOf])
      (by rw [hcomp]; exact nodup_dedupKeys _)]
    rw [List.nil_append, keysOf, hcomp]
  refine ⟨out, ?_, ?_, ?_, ?_⟩
  · rw [show list_reverse d =
        (match elemsOfValues d with
         | none => none
         | some elems =>
            appendLoop (ofPairs ((dedupKeys elems).map (fun k => (k, Val.vlist [])))) d)
        from rfl]
    rw [elemsOfValues_eq d hl]
    exact hloop
  · rw [hkeys, hkeys0]
    exact nodup_dedupKeys _
  · intro e
    rw [hkeys, hkeys0, mem_dedupKeys, mem_allElems]
  · intro e he
    rw [hkeys, hkeys0] at he
    rw [hinv e, if_pos he]
    rw [show ([] : SDict) ++ d = d from rfl]

/-- C9 (witness): the amended statement at `{'x': ['a','b'], 'y': ['b']}`,
which inverts to `{'a': ['x'], 'b': ['x','y']}`. -/
theorem list_reverse_spec_witness :
    ∃ out, list_reverse [(Key.s "x", Val.vlist [Key.s "a", Key.s "b"]),
        (Key.s "y", Val.vlist [Key.s "b"])] = some out ∧
      (keysOf out).Nodup ∧
      (∀ e, e ∈ keysOf out ↔ ∃ kv ∈ [(Key.s "x", Val.vlist [Key.s "a", Key.s "b"]),
        (Key.s "y", Val.vlist [Key.s "b"])], e ∈ elemsOf kv.2) ∧
      (∀ e ∈ keysOf out, lookup out e =
        some (Val.vlist (keysContaining [(Key.s "x", Val.vlist [Key.s "a", Key.s "b"]),
          (Key.s "y", Val.vlist [Key.s "b"])] e))) :=
  list_reverse_spec _ (by decide) (by decide)
